import Mathlib

/-!
# lcdMA.h : 16x2 character LCD driver (HD44780, 4-bit mode)

A shallow embedding of `src/lcdMA.h`.  The driver only writes six output
latches (`RS`, `EN`, `D4` .. `D7`) and calls the blocking delay builtins
`__delay_ms` / `__delay_us`.  Every such effect is recorded, in program
order, in a log carried by the state, so that "the pin-write sequence of an
operation" is the part of the log the operation appends.

C values are modelled as mathematical integers (`Int`).  Plain `char` is
8 bits wide and its signedness is implementation-defined, so every function
takes a flag `sc` (`true`: plain `char` is signed, `false`: unsigned) and
every conversion to `char` is the explicit wrap `toChar`.  The operators
`&` and `>>` are the two's-complement `Int.land` and the arithmetic
`Int.shiftRight`.  The width of `int` is implementation-defined as well (16
bits on the 8-bit targets of the driver): the functions that count with an
`int` take its width `w` in bits, and incrementing an `int` that holds
`INT_MAX` is undefined behaviour.
-/

namespace LcdMA

/-! ## Data model -/

/-- The six output lines of the driver (`#define RS` .. `#define D7`). -/
inductive Pin
  | RS | EN | D4 | D5 | D6 | D7
deriving DecidableEq, Repr

/-- One observable effect of the driver: a write of a level to a line
(`true` is 1, `false` is 0), or a call of a blocking delay builtin. -/
inductive Event
  | write (p : Pin) (v : Bool)
  | delay_ms (n : Nat)
  | delay_us (n : Nat)
deriving DecidableEq, Repr

/-- Instantaneous level of the six lines. -/
structure Pins where
  RS : Bool
  EN : Bool
  D4 : Bool
  D5 : Bool
  D6 : Bool
  D7 : Bool
deriving DecidableEq, Repr

/-- State threaded through the driver: the line levels and the log of all
effects performed so far (oldest first). -/
structure St where
  pins : Pins
  log : List Event
deriving DecidableEq, Repr

/-- Level update of one line. -/
def Pins.set (p : Pins) : Pin → Bool → Pins
  | Pin.RS, v => { p with RS := v }
  | Pin.EN, v => { p with EN := v }
  | Pin.D4, v => { p with D4 := v }
  | Pin.D5, v => { p with D5 := v }
  | Pin.D6, v => { p with D6 := v }
  | Pin.D7, v => { p with D7 := v }

/-- The assignment `P = v;` to an output latch: updates the level and logs the write. -/
def assign (p : Pin) (v : Bool) (s : St) : St :=
  { pins := s.pins.set p v, log := s.log ++ [Event.write p v] }

/-- The builtin `__delay_ms(n)`: no line changes, the wait is logged. -/
def __delay_ms (n : Nat) (s : St) : St :=
  { s with log := s.log ++ [Event.delay_ms n] }

/-- The builtin `__delay_us(n)`: no line changes, the wait is logged. -/
def __delay_us (n : Nat) (s : St) : St :=
  { s with log := s.log ++ [Event.delay_us n] }

/-- Conversion of an integer value to plain `char` (8 bits): modulo 256 when
`char` is unsigned, two's-complement wrap into -128 .. 127 when it is signed. -/
def toChar (sc : Bool) (x : Int) : Int :=
  if sc then (x + 128) % 256 - 128 else x % 256

/-! ## The driver -/

/-- `static void LCD_Port(char pin)` (lines 116-136). -/
def LCD_Port (sc : Bool) (arg : Int) (s : St) : St :=
  let pin := toChar sc arg
  let s := if Int.land pin 1 ≠ 0 then assign Pin.D4 true s else assign Pin.D4 false s
  let s := if Int.land pin 2 ≠ 0 then assign Pin.D5 true s else assign Pin.D5 false s
  let s := if Int.land pin 4 ≠ 0 then assign Pin.D6 true s else assign Pin.D6 false s
  let s := if Int.land pin 8 ≠ 0 then assign Pin.D7 true s else assign Pin.D7 false s
  s

/-- `static void LCD_Cmd(char a)` (lines 143-149). -/
def LCD_Cmd (sc : Bool) (arg : Int) (s : St) : St :=
  let a := toChar sc arg
  let s := assign Pin.RS false s
  let s := LCD_Port sc a s
  let s := assign Pin.EN true s
  let s := __delay_ms 4 s
  let s := assign Pin.EN false s
  s

/-- `static void LCD_Write_Char(char caracter)` (lines 156-169). -/
def LCD_Write_Char (sc : Bool) (arg : Int) (s : St) : St :=
  let caracter := toChar sc arg
  let temp := toChar sc (Int.land caracter 0x0F)
  let y := toChar sc (Int.land caracter 0xF0)
  let s := assign Pin.RS true s
  let s := LCD_Port sc (Int.shiftRight y 4) s
  let s := assign Pin.EN true s
  let s := __delay_us 40 s
  let s := assign Pin.EN false s
  let s := LCD_Port sc temp s
  let s := assign Pin.EN true s
  let s := __delay_us 40 s
  let s := assign Pin.EN false s
  s

/-- `void LCD_Clear(void)` (lines 176-179). -/
def LCD_Clear (sc : Bool) (s : St) : St :=
  let s := LCD_Cmd sc 0 s
  let s := LCD_Cmd sc 1 s
  s

/-- `void LCD_Set_Cursor(char row, char col)` (lines 190-205). -/
def LCD_Set_Cursor (sc : Bool) (argRow argCol : Int) (s : St) : St :=
  let row := toChar sc argRow
  let col := toChar sc argCol
  if row = 1 then
    let temp := toChar sc (0x80 + col - 1)
    let z := toChar sc (Int.shiftRight temp 4)
    let y := toChar sc (Int.land temp 0x0F)
    let s := LCD_Cmd sc z s
    let s := LCD_Cmd sc y s
    s
  else if row = 2 then
    let temp := toChar sc (0xC0 + col - 1)
    let z := toChar sc (Int.shiftRight temp 4)
    let y := toChar sc (Int.land temp 0x0F)
    let s := LCD_Cmd sc z s
    let s := LCD_Cmd sc y s
    s
  else s

/-- `void LCD_Init(void)` (lines 212-228). -/
def LCD_Init (sc : Bool) (s : St) : St :=
  let s := LCD_Port sc 0x00 s
  let s := __delay_ms 20 s
  let s := LCD_Cmd sc 0x03 s
  let s := __delay_ms 5 s
  let s := LCD_Cmd sc 0x03 s
  let s := __delay_ms 11 s
  let s := LCD_Cmd sc 0x03 s
  let s := LCD_Cmd sc 0x02 s
  let s := LCD_Cmd sc 0x02 s
  let s := LCD_Cmd sc 0x08 s
  let s := LCD_Cmd sc 0x00 s
  let s := LCD_Cmd sc 0x0C s
  let s := LCD_Cmd sc 0x00 s
  let s := LCD_Cmd sc 0x06 s
  s

/-- The largest value of a two's-complement `int` that is `w` bits wide
(`INT_MAX`): 32767 for 16 bits, 2147483647 for 32 bits. -/
def INT_MAX (w : Nat) : Nat :=
  2 ^ (w - 1) - 1

/-- The loop `for (...; txt[i] != '\0'; i++) LCD_Write_Char(txt[i]);` of
`LCD_Write_String` (lines 237-238), entered with the index `i`.  The list is
the content of the object `txt` points into from `txt[i]` on, one integer per
byte (its value 0 .. 255; reading it as a `char` is `toChar`); `w` is the
width of `int` in bits.  Reading past the end of the object, which happens
when it holds no NUL, is undefined behaviour and yields `none`; so does the
increment `i++` when `i` is `INT_MAX`, a signed overflow. -/
def LCD_Write_String.loop (sc : Bool) (w : Nat) : Nat → List Int → St → Option St
  | _, [], _ => none
  | i, b :: rest, s =>
    if toChar sc b ≠ 0 then
      let s := LCD_Write_Char sc (toChar sc b) s
      if i < INT_MAX w then LCD_Write_String.loop sc w (i + 1) rest s else none
    else some s

/-- `void LCD_Write_String(char *txt)` (lines 235-239): `int i;` and the loop
started with `i = 0` on the content of the object `txt` points into. -/
def LCD_Write_String (sc : Bool) (w : Nat) (txt : List Int) (s : St) : Option St :=
  LCD_Write_String.loop sc w 0 txt s

/-- `void LCD_Shift_Right(void)` (lines 246-249). -/
def LCD_Shift_Right (sc : Bool) (s : St) : St :=
  let s := LCD_Cmd sc 0x01 s
  let s := LCD_Cmd sc 0x0C s
  s

/-- `void LCD_Shift_Left(void)` (lines 256-259). -/
def LCD_Shift_Left (sc : Bool) (s : St) : St :=
  let s := LCD_Cmd sc 0x01 s
  let s := LCD_Cmd sc 0x08 s
  s

/-- `void LCD_Print(char *txt, char row, char col)` (lines 286-289). -/
def LCD_Print (sc : Bool) (w : Nat) (txt : List Int) (row col : Int) (s : St) : Option St :=
  let s := LCD_Set_Cursor sc row col s
  LCD_Write_String sc w txt s

/-- Modelled from the spec: the digit loop of the C library conversion `"%i"`
(the library is not part of the source file).  It pushes the decimal digits
of `n`, most significant first, as ASCII codes in front of `acc`; at most
`fuel` digits are produced, and `fuel > n` is always enough
(`decimalDigits_eq_digits`). -/
def decimalDigits : Nat → Nat → List Int → List Int
  | 0, _, acc => acc
  | fuel + 1, n, acc =>
    if n / 10 = 0 then (0x30 + ((n % 10 : Nat) : Int)) :: acc
    else decimalDigits fuel (n / 10) ((0x30 + ((n % 10 : Nat) : Int)) :: acc)

/-- Modelled from the spec: the text that the C library conversion `"%i"`
produces for `num`; the library is not part of the source file.  Following
section 4.4 it is the locale-independent standard signed decimal text: `'-'`
(0x2D) in front of the digits of a negative number, then the decimal digits
of the magnitude without leading zeros, a single `'0'` for zero. -/
def fmt_i (num : Int) : List Int :=
  if num < 0 then 0x2D :: decimalDigits (num.natAbs + 1) num.natAbs []
  else decimalDigits (num.natAbs + 1) num.natAbs []

/-- Modelled from the spec: `sprintf(buff, "%i", num)` into an array of `size`
bytes; the library is not part of the source file.  It stores the text and a
terminating NUL from `buff[0]` on and the result is the content of `buff` up
to and including that NUL; when text and NUL do not fit into `size` bytes the
write runs past the array, which is undefined behaviour and yields `none`. -/
def sprintf_i (size : Nat) (num : Int) : Option (List Int) :=
  if (fmt_i num ++ [0]).length ≤ size then some (fmt_i num ++ [0]) else none

/-- `void LCD_Print_Int(int num, char row, char col)` (lines 270-275), with
`char buff[16]`. -/
def LCD_Print_Int (sc : Bool) (w : Nat) (num row col : Int) (s : St) : Option St :=
  let s := LCD_Set_Cursor sc row col s
  match sprintf_i 16 num with
  | none => none
  | some buff => LCD_Write_String sc w buff s

/-! ## Observing what an operation does -/

/-- The pin-write sequence of an operation started in `s`: what it appends to the log. -/
def trace (f : St → St) (s : St) : List Event :=
  (f s).log.drop s.log.length

/-- The pin-write sequence of an operation that may fail to return. -/
def trace? (f : St → Option St) (s : St) : Option (List Event) :=
  (f s).map fun t => t.log.drop s.log.length

/-- Bit `i` of a two's-complement integer. -/
def bit (n : Int) (i : Nat) : Bool :=
  decide (n / 2 ^ i % 2 = 1)

/-- Driving the data lines with a nibble: `D4` gets bit 0, `D5` bit 1,
`D6` bit 2 and `D7` bit 3, written in this order. -/
def portEvents (n : Int) : List Event :=
  [Event.write Pin.D4 (bit n 0), Event.write Pin.D5 (bit n 1),
   Event.write Pin.D6 (bit n 2), Event.write Pin.D7 (bit n 3)]

/-- Line levels after driving the data lines with a nibble. -/
def portPins (n : Int) (p : Pins) : Pins :=
  { p with D4 := bit n 0, D5 := bit n 1, D6 := bit n 2, D7 := bit n 3 }

/-- One command nibble transfer: `RS` low, the nibble on the data lines,
`EN` raised, 4 ms wait, `EN` lowered. -/
def cmdEvents (n : Int) : List Event :=
  Event.write Pin.RS false :: portEvents n ++
    [Event.write Pin.EN true, Event.delay_ms 4, Event.write Pin.EN false]

/-- One `EN` pulse of a data transfer: raise, 40 us wait, lower. -/
def pulse40 : List Event :=
  [Event.write Pin.EN true, Event.delay_us 40, Event.write Pin.EN false]

/-- One two-nibble data write of the byte `b`: `RS` high, high nibble and
pulse, low nibble and pulse. -/
def charEvents (b : Int) : List Event :=
  Event.write Pin.RS true :: portEvents (b / 16) ++ pulse40 ++ portEvents (b % 16) ++ pulse40

/-- Replaying one logged effect on the line levels. -/
def Pins.apply (p : Pins) : Event → Pins
  | Event.write q v => p.set q v
  | Event.delay_ms _ => p
  | Event.delay_us _ => p

/-- Replaying a pin-write sequence on the line levels. -/
def replay (p : Pins) (es : List Event) : Pins :=
  es.foldl Pins.apply p

/-- The nibble on the data lines, `D7` being the most significant bit. -/
def Pins.nibble (p : Pins) : Nat :=
  (if p.D7 then 8 else 0) + (if p.D6 then 4 else 0) + (if p.D5 then 2 else 0) +
    (if p.D4 then 1 else 0)

/-- What the controller latches while a pin-write sequence is replayed from
the levels `p`: at every falling edge of `EN` (a write of 0 to `EN` while it
is 1) the level of `RS` and the nibble on the data lines. -/
def latched : Pins → List Event → List (Bool × Nat)
  | _, [] => []
  | p, e :: es =>
    if p.EN = true ∧ e = Event.write Pin.EN false then
      (p.RS, p.nibble) :: latched (p.apply e) es
    else latched (p.apply e) es

/-- Line levels after one command nibble transfer. -/
def cmdPins (n : Int) (p : Pins) : Pins :=
  { portPins n p with RS := false, EN := false }

/-- Line levels after one two-nibble data write of the byte `b`. -/
def charPins (b : Int) (p : Pins) : Pins :=
  { portPins (b % 16) p with RS := true, EN := false }

/-- Whether an effect is a write to the line `q`. -/
def Event.isWriteTo (q : Pin) : Event → Bool
  | Event.write p _ => decide (p = q)
  | _ => false

/-- All lines low and nothing logged yet. -/
def St.idle : St :=
  { pins := { RS := false, EN := false, D4 := false, D5 := false, D6 := false, D7 := false },
    log := [] }

/-- The values a plain `char` can hold: -128 .. 127 when signed, 0 .. 255 when unsigned. -/
def isChar (sc : Bool) (x : Int) : Prop :=
  if sc then -128 ≤ x ∧ x ≤ 127 else 0 ≤ x ∧ x ≤ 255

instance (sc : Bool) (x : Int) : Decidable (isChar sc x) := by
  unfold isChar; infer_instance

/-- The set-DDRAM-address byte for a position: base `0x80` for row 1 and
`0xC0` for row 2, plus the zero-based column. -/
def cursorByte (row col : Int) : Int :=
  (if row = 1 then 0x80 else 0xC0) + (col - 1)

/-- Controller model of the shift round trip (spec section 8): the display
origin offset, and the high nibble waiting for its low nibble in 4-bit mode. -/
structure Controller where
  pending : Option (Bool × Nat)
  offset : Int
deriving DecidableEq, Repr

/-- The controller executing a command byte: 0x18 moves the display origin
one position one way, 0x1C one position the other way; every other command
leaves the origin where it is. -/
def Controller.command (c : Controller) (byte : Nat) : Controller :=
  if byte = 0x18 then { c with offset := c.offset + 1 }
  else if byte = 0x1C then { c with offset := c.offset - 1 }
  else c

/-- The controller receiving one latched nibble: the first nibble of a pair
is kept as the high nibble, the second completes the byte, which is executed
as a command when both nibbles were latched with `RS` low. -/
def Controller.latch (c : Controller) (x : Bool × Nat) : Controller :=
  match c.pending with
  | none => { c with pending := some x }
  | some (rsHi, hi) =>
    if rsHi = false ∧ x.1 = false then
      Controller.command { c with pending := none } (16 * hi + x.2)
    else { c with pending := none }

/-- The controller receiving a sequence of latched nibbles. -/
def Controller.run (c : Controller) (xs : List (Bool × Nat)) : Controller :=
  xs.foldl Controller.latch c

/-- The transfer protocol on a pin-write sequence, started with `EN` at the
level `en`: every write to `EN` writes the opposite of its current level (so
the writes alternate), and no other line is written while `EN` is high.  The
result is the level of `EN` at the end, or `none` when the sequence breaks
one of the two rules. -/
def protocol : Bool → List Event → Option Bool
  | en, [] => some en
  | en, Event.write p v :: es =>
    if p = Pin.EN then (if v = en then none else protocol v es)
    else (if en = true then none else protocol en es)
  | en, Event.delay_ms _ :: es => protocol en es
  | en, Event.delay_us _ :: es => protocol en es

/-- The bytes a controller in 4-bit mode assembles from the nibbles it
latches: consecutive nibbles are paired, the first being the high nibble. -/
def bytesOf : List (Bool × Nat) → List Nat
  | (_, hi) :: (_, lo) :: rest => (16 * hi + lo) :: bytesOf rest
  | _ => []

/-- The values of a two's-complement `int` that is `w` bits wide. -/
def isInt (w : Nat) (n : Int) : Prop :=
  -(2 ^ (w - 1)) ≤ n ∧ n ≤ 2 ^ (w - 1) - 1

instance (w : Nat) (n : Int) : Decidable (isInt w n) := by
  unfold isInt; infer_instance

/-! ## Bitwise facts -/

/-- The two's-complement `and` with a non-negative mask below `2 ^ k` only
looks at the `k` low bits of its first operand. -/
theorem land_natCast (x : Int) (m k : Nat) (hm : m < 2 ^ k) :
    Int.land x (m : Int) = (((x % (2 ^ k : Int)).toNat &&& m : Nat) : Int) := by
  have hbit : ∀ i, k ≤ i → m.testBit i = false := fun i hi =>
    Nat.testBit_eq_false_of_lt (lt_of_lt_of_le hm (Nat.pow_le_pow_right (by norm_num) hi))
  have hpos : 0 < 2 ^ k := Nat.pow_pos (by norm_num)
  cases x with
  | ofNat n =>
    have h1 : ((Int.ofNat n) % (2 ^ k : Int)).toNat = n % 2 ^ k := by
      have : (Int.ofNat n) % (2 ^ k : Int) = ((n % 2 ^ k : Nat) : Int) := by
        simp [Int.ofNat_eq_coe]
      rw [this, Int.toNat_natCast]
    rw [h1]
    show ((n &&& m : Nat) : Int) = _
    congr 1
    apply Nat.eq_of_testBit_eq
    intro i
    simp only [Nat.testBit_land, Nat.testBit_mod_two_pow]
    by_cases hi : i < k
    · simp [hi]
    · simp [hbit i (not_lt.mp hi)]
  | negSucc n =>
    have hlt : n % 2 ^ k < 2 ^ k := Nat.mod_lt _ hpos
    have h1 : ((Int.negSucc n) % (2 ^ k : Int)).toNat = 2 ^ k - (n % 2 ^ k + 1) := by
      have : (Int.negSucc n) % (2 ^ k : Int) = ((2 ^ k - (n % 2 ^ k + 1) : Nat) : Int) := by
        rw [Int.negSucc_emod n (by exact_mod_cast hpos)]
        push_cast [Nat.cast_sub (Nat.succ_le_of_lt hlt)]
        ring
      rw [this, Int.toNat_natCast]
    rw [h1]
    show ((Nat.ldiff m n : Nat) : Int) = _
    congr 1
    apply Nat.eq_of_testBit_eq
    intro i
    rw [Nat.testBit_ldiff, Nat.testBit_land, Nat.testBit_two_pow_sub_succ hlt,
      Nat.testBit_mod_two_pow]
    by_cases hi : i < k
    · simp [hi, Bool.and_comm]
    · simp [hbit i (not_lt.mp hi)]

/-- The `k` low bits of an integer, as a natural number below `2 ^ k`. -/
theorem lowBits_spec (x : Int) (k : Nat) :
    ∃ r : Nat, r < 2 ^ k ∧ (r : Int) = x % (2 ^ k : Int) ∧ (x % (2 ^ k : Int)).toNat = r := by
  have hpos : (0 : Int) < 2 ^ k := by positivity
  have h0 : 0 ≤ x % (2 ^ k : Int) := Int.emod_nonneg _ (ne_of_gt hpos)
  have h1 : x % (2 ^ k : Int) < 2 ^ k := Int.emod_lt_of_pos _ hpos
  refine ⟨(x % (2 ^ k : Int)).toNat, ?_, Int.toNat_of_nonneg h0, rfl⟩
  have : ((x % (2 ^ k : Int)).toNat : Int) < ((2 ^ k : Nat) : Int) := by
    rw [Int.toNat_of_nonneg h0]; exact_mod_cast h1
  exact_mod_cast this

theorem land_one (x : Int) : (Int.land x 1 ≠ 0) ↔ bit x 0 = true := by
  obtain ⟨r, hr, hx, hr2⟩ := lowBits_spec x 4
  have h := land_natCast x 1 4 (by norm_num)
  rw [hr2] at h
  have key : ∀ r < 16, ((r &&& 1 ≠ 0) ↔ r % 2 = 1) := by decide
  have hk := key r (by simpa using hr)
  simp only [Nat.cast_one] at h
  simp only [h, bit, decide_eq_true_eq]
  norm_num at hx
  constructor
  · intro hne
    have : r &&& 1 ≠ 0 := by exact_mod_cast hne
    have := hk.mp this
    omega
  · intro hb
    have : r % 2 = 1 := by omega
    have := hk.mpr this
    exact_mod_cast this

theorem land_two (x : Int) : (Int.land x 2 ≠ 0) ↔ bit x 1 = true := by
  obtain ⟨r, hr, hx, hr2⟩ := lowBits_spec x 4
  have h := land_natCast x 2 4 (by norm_num)
  rw [hr2] at h
  have key : ∀ r < 16, ((r &&& 2 ≠ 0) ↔ r / 2 % 2 = 1) := by decide
  have hk := key r (by simpa using hr)
  simp only [Nat.cast_ofNat] at h
  simp only [h, bit, decide_eq_true_eq]
  norm_num at hx
  constructor
  · intro hne
    have : r &&& 2 ≠ 0 := by exact_mod_cast hne
    have := hk.mp this
    omega
  · intro hb
    have : r / 2 % 2 = 1 := by omega
    have := hk.mpr this
    exact_mod_cast this

theorem land_four (x : Int) : (Int.land x 4 ≠ 0) ↔ bit x 2 = true := by
  obtain ⟨r, hr, hx, hr2⟩ := lowBits_spec x 4
  have h := land_natCast x 4 4 (by norm_num)
  rw [hr2] at h
  have key : ∀ r < 16, ((r &&& 4 ≠ 0) ↔ r / 4 % 2 = 1) := by decide
  have hk := key r (by simpa using hr)
  simp only [Nat.cast_ofNat] at h
  simp only [h, bit, decide_eq_true_eq]
  norm_num at hx
  constructor
  · intro hne
    have : r &&& 4 ≠ 0 := by exact_mod_cast hne
    have := hk.mp this
    omega
  · intro hb
    have : r / 4 % 2 = 1 := by omega
    have := hk.mpr this
    exact_mod_cast this

theorem land_eight (x : Int) : (Int.land x 8 ≠ 0) ↔ bit x 3 = true := by
  obtain ⟨r, hr, hx, hr2⟩ := lowBits_spec x 4
  have h := land_natCast x 8 4 (by norm_num)
  rw [hr2] at h
  have key : ∀ r < 16, ((r &&& 8 ≠ 0) ↔ r / 8 % 2 = 1) := by decide
  have hk := key r (by simpa using hr)
  simp only [Nat.cast_ofNat] at h
  simp only [h, bit, decide_eq_true_eq]
  norm_num at hx
  constructor
  · intro hne
    have : r &&& 8 ≠ 0 := by exact_mod_cast hne
    have := hk.mp this
    omega
  · intro hb
    have : r / 8 % 2 = 1 := by omega
    have := hk.mpr this
    exact_mod_cast this

/-- Masking with `0x0F` keeps the low nibble. -/
theorem land_0F (x : Int) : Int.land x 0x0F = x % 16 := by
  obtain ⟨r, hr, hx, hr2⟩ := lowBits_spec x 4
  have h := land_natCast x 0x0F 4 (by norm_num)
  rw [hr2] at h
  have key : ∀ r < 16, r &&& 0x0F = r % 16 := by decide
  simp only [Nat.cast_ofNat] at h
  rw [h, key r (by simpa using hr)]
  norm_num at hx
  omega

set_option maxRecDepth 100000 in
/-- Masking with `0xF0` keeps bits 4 .. 7. -/
theorem land_F0 (x : Int) : Int.land x 0xF0 = x % 256 - x % 16 := by
  obtain ⟨r, hr, hx, hr2⟩ := lowBits_spec x 8
  have h := land_natCast x 0xF0 8 (by norm_num)
  rw [hr2] at h
  have key : ∀ r < 256, r &&& 0xF0 = r - r % 16 := by decide
  simp only [Nat.cast_ofNat] at h
  rw [h, key r (by simpa using hr)]
  norm_num at hx
  omega

/-- The arithmetic right shift by four is the floor division by 16. -/
theorem shiftRight_four (x : Int) : Int.shiftRight x 4 = x / 16 := by
  have := Int.shiftRight_eq_div_pow x 4
  simpa using this

/-- Bits 0 .. 3 of an integer survive the conversion to `char`. -/
theorem bit_toChar (sc : Bool) (x : Int) :
    bit (toChar sc x) 0 = bit x 0 ∧ bit (toChar sc x) 1 = bit x 1 ∧
    bit (toChar sc x) 2 = bit x 2 ∧ bit (toChar sc x) 3 = bit x 3 := by
  cases sc <;> simp only [bit, toChar, decide_eq_decide] <;> norm_num <;> omega

/-- The events of a port write depend only on the low nibble of the value. -/
theorem portEvents_congr {x y : Int} (h : x % 16 = y % 16) : portEvents x = portEvents y := by
  simp only [portEvents, bit]
  norm_num
  refine ⟨?_, ?_, ?_, ?_⟩ <;> omega

/-- The levels after a port write depend only on the low nibble of the value. -/
theorem portPins_congr {x y : Int} (h : x % 16 = y % 16) (p : Pins) :
    portPins x p = portPins y p := by
  simp only [portPins, bit]
  norm_num
  refine ⟨?_, ?_, ?_, ?_⟩ <;> omega

/-! ## What each transport function does -/

theorem LCD_Port_eq (sc : Bool) (arg : Int) (s : St) :
    LCD_Port sc arg s = { pins := portPins arg s.pins, log := s.log ++ portEvents arg } := by
  obtain ⟨h0, h1, h2, h3⟩ := bit_toChar sc arg
  simp only [LCD_Port, land_one, land_two, land_four, land_eight, h0, h1, h2, h3, portPins,
    portEvents]
  generalize bit arg 0 = b0
  generalize bit arg 1 = b1
  generalize bit arg 2 = b2
  generalize bit arg 3 = b3
  cases b0 <;> cases b1 <;> cases b2 <;> cases b3 <;> simp [assign, Pins.set]

theorem LCD_Cmd_eq (sc : Bool) (arg : Int) (s : St) :
    LCD_Cmd sc arg s = { pins := cmdPins arg s.pins, log := s.log ++ cmdEvents arg } := by
  have h : toChar sc arg % 16 = arg % 16 := by
    cases sc <;> simp only [toChar] <;> omega
  simp only [LCD_Cmd, LCD_Port_eq, assign, __delay_ms, Pins.set, cmdEvents,
    portEvents_congr h, portPins_congr h]
  simp [cmdPins, portPins]

theorem LCD_Write_Char_eq (sc : Bool) (arg : Int) (s : St) :
    LCD_Write_Char sc arg s =
      { pins := charPins (arg % 256) s.pins, log := s.log ++ charEvents (arg % 256) } := by
  have hhi : (Int.shiftRight (toChar sc (Int.land (toChar sc arg) 0xF0)) 4) % 16
      = (arg % 256 / 16) % 16 := by
    rw [shiftRight_four, land_F0]
    cases sc <;> simp only [toChar] <;> omega
  have hlo : (toChar sc (Int.land (toChar sc arg) 0x0F)) % 16 = (arg % 256 % 16) % 16 := by
    rw [land_0F]
    cases sc <;> simp only [toChar] <;> omega
  simp only [LCD_Write_Char, LCD_Port_eq, assign, __delay_us, Pins.set, charEvents, pulse40,
    portEvents_congr hhi, portPins_congr hhi, portEvents_congr hlo, portPins_congr hlo]
  simp [charPins, portPins, portEvents_congr (Int.emod_emod_of_dvd (arg % 256) (dvd_refl 16)),
    portPins_congr (Int.emod_emod_of_dvd (arg % 256) (dvd_refl 16))]

/-! ## Traces, replay and latching -/

theorem trace_eq_of_log {f : St → St} {s : St} {es : List Event}
    (h : (f s).log = s.log ++ es) : trace f s = es := by
  simp [trace, h]

theorem latched_append (p : Pins) (xs ys : List Event) :
    latched p (xs ++ ys) = latched p xs ++ latched (replay p xs) ys := by
  induction xs generalizing p with
  | nil => simp [latched, replay]
  | cons e es ih =>
    simp only [List.cons_append, latched, replay, List.foldl_cons]
    split
    · simp [ih, replay]
    · simp [ih, replay]

theorem replay_append (p : Pins) (xs ys : List Event) :
    replay p (xs ++ ys) = replay (replay p xs) ys := by
  simp [replay, List.foldl_append]

/-- The nibble read back from the data lines is the nibble that was driven. -/
theorem nibble_portPins (n : Int) (h0 : 0 ≤ n) (h1 : n < 16) (p : Pins) :
    (portPins n p).nibble = n.toNat := by
  interval_cases n <;> simp [portPins, bit, Pins.nibble]

theorem replay_portEvents (n : Int) (p : Pins) : replay p (portEvents n) = portPins n p := by
  simp [replay, portEvents, Pins.apply, Pins.set, portPins]

theorem latched_portEvents (n : Int) (p : Pins) : latched p (portEvents n) = [] := by
  simp [latched, portEvents]

theorem replay_cmdEvents (n : Int) (p : Pins) : replay p (cmdEvents n) = cmdPins n p := by
  simp [replay, cmdEvents, portEvents, Pins.apply, Pins.set, cmdPins, portPins]

theorem latched_cmdEvents (n : Int) (h0 : 0 ≤ n) (h1 : n < 16) (p : Pins) :
    latched p (cmdEvents n) = [(false, n.toNat)] := by
  have hn := nibble_portPins n h0 h1 p
  simp only [portPins, Pins.nibble] at hn
  simp [latched, cmdEvents, portEvents, Pins.apply, Pins.set, Pins.nibble, hn]

theorem replay_charEvents (b : Int) (p : Pins) : replay p (charEvents b) = charPins b p := by
  simp [replay, charEvents, pulse40, portEvents, Pins.apply, Pins.set, charPins, portPins]

theorem latched_charEvents (b : Int) (h0 : 0 ≤ b) (h1 : b < 256) (p : Pins) :
    latched p (charEvents b) = [(true, (b / 16).toNat), (true, (b % 16).toNat)] := by
  have hhi := nibble_portPins (b / 16) (by omega) (by omega) p
  have hlo := nibble_portPins (b % 16) (by omega) (by omega) p
  simp only [portPins, Pins.nibble] at hhi hlo
  simp [latched, charEvents, pulse40, portEvents, Pins.apply, Pins.set, Pins.nibble, hhi, hlo]

/-! ## C1 : the two-nibble data write -/

/-- C1: for every byte `b` (0 .. 255), either signedness of `char` and every
initial state, `LCD_Write_Char(b)` appends exactly: `RS := 1`, the high nibble
`b / 16` on `D4 .. D7`, `EN := 1`, 40 us, `EN := 0`, the low nibble `b mod 16`
on `D4 .. D7`, `EN := 1`, 40 us, `EN := 0`.  `RS` is written exactly once, it
is the first write, `RS` reads 1 after every later step, and the controller
latches `(RS = 1, b / 16)` and then `(RS = 1, b mod 16)`. -/
theorem C1_LCD_Write_Char_sequence (sc : Bool) (b : Int) (hb0 : 0 ≤ b) (hb1 : b < 256)
    (s : St) :
    trace (LCD_Write_Char sc b) s =
      [Event.write Pin.RS true,
       Event.write Pin.D4 (bit (b / 16) 0), Event.write Pin.D5 (bit (b / 16) 1),
       Event.write Pin.D6 (bit (b / 16) 2), Event.write Pin.D7 (bit (b / 16) 3),
       Event.write Pin.EN true, Event.delay_us 40, Event.write Pin.EN false,
       Event.write Pin.D4 (bit (b % 16) 0), Event.write Pin.D5 (bit (b % 16) 1),
       Event.write Pin.D6 (bit (b % 16) 2), Event.write Pin.D7 (bit (b % 16) 3),
       Event.write Pin.EN true, Event.delay_us 40, Event.write Pin.EN false] ∧
    ((trace (LCD_Write_Char sc b) s).filter (Event.isWriteTo Pin.RS)).length = 1 ∧
    (∀ n, 1 ≤ n → (replay s.pins ((trace (LCD_Write_Char sc b) s).take n)).RS = true) ∧
    latched s.pins (trace (LCD_Write_Char sc b) s) =
      [(true, (b / 16).toNat), (true, (b % 16).toNat)] := by
  have hmod : b % 256 = b := Int.emod_eq_of_lt hb0 hb1
  have ht : trace (LCD_Write_Char sc b) s = charEvents b := by
    apply trace_eq_of_log
    rw [LCD_Write_Char_eq, hmod]
  refine ⟨?_, ?_, ?_, ?_⟩
  · rw [ht]; rfl
  · rw [ht]; simp [charEvents, pulse40, portEvents, Event.isWriteTo]
  · intro n hn
    rw [ht]
    simp only [charEvents, pulse40, portEvents, List.cons_append, List.nil_append]
    rcases Nat.lt_or_ge n 15 with h | h
    · interval_cases n <;> simp [replay, Pins.apply, Pins.set]
    · rw [List.take_of_length_le (by simpa using h)]
      simp [replay, Pins.apply, Pins.set]
  · rw [ht]; exact latched_charEvents b hb0 hb1 s.pins

/-- Witness for C1 at the byte 0x41 (`'A'`), unsigned `char`, all lines low. -/
theorem C1_LCD_Write_Char_sequence_witness :
    (0 : Int) ≤ 0x41 ∧ (0x41 : Int) < 256 ∧
    trace (LCD_Write_Char false 0x41) St.idle =
      [Event.write Pin.RS true,
       Event.write Pin.D4 false, Event.write Pin.D5 false,
       Event.write Pin.D6 true, Event.write Pin.D7 false,
       Event.write Pin.EN true, Event.delay_us 40, Event.write Pin.EN false,
       Event.write Pin.D4 true, Event.write Pin.D5 false,
       Event.write Pin.D6 false, Event.write Pin.D7 false,
       Event.write Pin.EN true, Event.delay_us 40, Event.write Pin.EN false] :=
  ⟨by decide, by decide,
    (C1_LCD_Write_Char_sequence false 0x41 (by decide) (by decide) St.idle).1⟩

/-! ## C2 : the initialisation sequence -/

theorem LCD_Init_log (sc : Bool) (s : St) :
    (LCD_Init sc s).log = s.log ++ (portEvents 0 ++ [Event.delay_ms 20] ++ cmdEvents 3 ++
      [Event.delay_ms 5] ++ cmdEvents 3 ++ [Event.delay_ms 11] ++ cmdEvents 3 ++
      cmdEvents 2 ++ cmdEvents 2 ++ cmdEvents 8 ++ cmdEvents 0 ++ cmdEvents 12 ++
      cmdEvents 0 ++ cmdEvents 6) := by
  simp only [LCD_Init, LCD_Cmd_eq, LCD_Port_eq, __delay_ms, List.append_assoc]

/-- C2: for either signedness of `char` and every initial state, `LCD_Init`
appends exactly the fourteen steps: data lines cleared, 20 ms, command nibble
3, 5 ms, command nibble 3, 11 ms, command nibble 3, then command nibbles
2, 2, 8, 0, 0xC, 0, 6 (each command nibble being `RS := 0`, the nibble on
`D4 .. D7`, `EN := 1`, 4 ms, `EN := 0`).  The controller latches these ten
nibbles, each with `RS` low, and no step writes 1 to `RS`. -/
theorem C2_LCD_Init_sequence (sc : Bool) (s : St) :
    trace (LCD_Init sc) s =
      [Event.write Pin.D4 false, Event.write Pin.D5 false,
       Event.write Pin.D6 false, Event.write Pin.D7 false,
       Event.delay_ms 20,
       Event.write Pin.RS false,
       Event.write Pin.D4 true, Event.write Pin.D5 true,
       Event.write Pin.D6 false, Event.write Pin.D7 false,
       Event.write Pin.EN true, Event.delay_ms 4, Event.write Pin.EN false,
       Event.delay_ms 5,
       Event.write Pin.RS false,
       Event.write Pin.D4 true, Event.write Pin.D5 true,
       Event.write Pin.D6 false, Event.write Pin.D7 false,
       Event.write Pin.EN true, Event.delay_ms 4, Event.write Pin.EN false,
       Event.delay_ms 11,
       Event.write Pin.RS false,
       Event.write Pin.D4 true, Event.write Pin.D5 true,
       Event.write Pin.D6 false, Event.write Pin.D7 false,
       Event.write Pin.EN true, Event.delay_ms 4, Event.write Pin.EN false,
       Event.write Pin.RS false,
       Event.write Pin.D4 false, Event.write Pin.D5 true,
       Event.write Pin.D6 false, Event.write Pin.D7 false,
       Event.write Pin.EN true, Event.delay_ms 4, Event.write Pin.EN false,
       Event.write Pin.RS false,
       Event.write Pin.D4 false, Event.write Pin.D5 true,
       Event.write Pin.D6 false, Event.write Pin.D7 false,
       Event.write Pin.EN true, Event.delay_ms 4, Event.write Pin.EN false,
       Event.write Pin.RS false,
       Event.write Pin.D4 false, Event.write Pin.D5 false,
       Event.write Pin.D6 false, Event.write Pin.D7 true,
       Event.write Pin.EN true, Event.delay_ms 4, Event.write Pin.EN false,
       Event.write Pin.RS false,
       Event.write Pin.D4 false, Event.write Pin.D5 false,
       Event.write Pin.D6 false, Event.write Pin.D7 false,
       Event.write Pin.EN true, Event.delay_ms 4, Event.write Pin.EN false,
       Event.write Pin.RS false,
       Event.write Pin.D4 false, Event.write Pin.D5 false,
       Event.write Pin.D6 true, Event.write Pin.D7 true,
       Event.write Pin.EN true, Event.delay_ms 4, Event.write Pin.EN false,
       Event.write Pin.RS false,
       Event.write Pin.D4 false, Event.write Pin.D5 false,
       Event.write Pin.D6 false, Event.write Pin.D7 false,
       Event.write Pin.EN true, Event.delay_ms 4, Event.write Pin.EN false,
       Event.write Pin.RS false,
       Event.write Pin.D4 false, Event.write Pin.D5 true,
       Event.write Pin.D6 true, Event.write Pin.D7 false,
       Event.write Pin.EN true, Event.delay_ms 4, Event.write Pin.EN false] ∧
    latched s.pins (trace (LCD_Init sc) s) =
      [(false, 3), (false, 3), (false, 3), (false, 2), (false, 2), (false, 8),
       (false, 0), (false, 12), (false, 0), (false, 6)] ∧
    Event.write Pin.RS true ∉ trace (LCD_Init sc) s := by
  have ht := trace_eq_of_log (LCD_Init_log sc s)
  rw [ht]
  refine ⟨by decide, ?_, by decide⟩
  simp only [latched_append, replay_append, latched_portEvents, replay_cmdEvents,
    replay_portEvents]
  rw [latched_cmdEvents 3 (by decide) (by decide), latched_cmdEvents 3 (by decide) (by decide),
    latched_cmdEvents 3 (by decide) (by decide), latched_cmdEvents 2 (by decide) (by decide),
    latched_cmdEvents 2 (by decide) (by decide), latched_cmdEvents 8 (by decide) (by decide),
    latched_cmdEvents 0 (by decide) (by decide), latched_cmdEvents 12 (by decide) (by decide),
    latched_cmdEvents 0 (by decide) (by decide), latched_cmdEvents 6 (by decide) (by decide)]
  simp [latched]

/-! ## C3, C4 : cursor positioning -/

theorem cmdEvents_congr {x y : Int} (h : x % 16 = y % 16) : cmdEvents x = cmdEvents y := by
  simp only [cmdEvents, portEvents_congr h]

theorem cmdPins_congr {x y : Int} (h : x % 16 = y % 16) (p : Pins) :
    cmdPins x p = cmdPins y p := by
  simp only [cmdPins, portPins_congr h]

theorem toChar_of_isChar {sc : Bool} {x : Int} (h : isChar sc x) : toChar sc x = x := by
  cases sc <;> simp only [isChar, toChar] at * <;> norm_num at h ⊢ <;> omega

/-- Row 1 of `LCD_Set_Cursor`, for any column argument: two command nibbles,
high then low, of the byte `(0x80 + col - 1) mod 256`. -/
theorem LCD_Set_Cursor_row1 (sc : Bool) (row col : Int) (h : toChar sc row = 1) (s : St) :
    LCD_Set_Cursor sc row col s =
      { pins := cmdPins ((0x80 + col - 1) % 16) (cmdPins ((0x80 + col - 1) % 256 / 16) s.pins),
        log := s.log ++ (cmdEvents ((0x80 + col - 1) % 256 / 16) ++
          cmdEvents ((0x80 + col - 1) % 16)) } := by
  have hz : toChar sc (Int.shiftRight (toChar sc (0x80 + toChar sc col - 1)) 4) % 16
      = ((0x80 + col - 1) % 256 / 16) % 16 := by
    rw [shiftRight_four]
    cases sc <;> simp only [toChar] <;> omega
  have hy : toChar sc (Int.land (toChar sc (0x80 + toChar sc col - 1)) 0x0F) % 16
      = ((0x80 + col - 1) % 16) % 16 := by
    rw [land_0F]
    cases sc <;> simp only [toChar] <;> omega
  simp only [LCD_Set_Cursor, h, if_true, LCD_Cmd_eq, cmdEvents_congr hz, cmdPins_congr hz,
    cmdEvents_congr hy, cmdPins_congr hy, List.append_assoc]

/-- Row 2 of `LCD_Set_Cursor`, for any column argument: two command nibbles,
high then low, of the byte `(0xC0 + col - 1) mod 256`. -/
theorem LCD_Set_Cursor_row2 (sc : Bool) (row col : Int) (h : toChar sc row = 2) (s : St) :
    LCD_Set_Cursor sc row col s =
      { pins := cmdPins ((0xC0 + col - 1) % 16) (cmdPins ((0xC0 + col - 1) % 256 / 16) s.pins),
        log := s.log ++ (cmdEvents ((0xC0 + col - 1) % 256 / 16) ++
          cmdEvents ((0xC0 + col - 1) % 16)) } := by
  have hz : toChar sc (Int.shiftRight (toChar sc (0xC0 + toChar sc col - 1)) 4) % 16
      = ((0xC0 + col - 1) % 256 / 16) % 16 := by
    rw [shiftRight_four]
    cases sc <;> simp only [toChar] <;> omega
  have hy : toChar sc (Int.land (toChar sc (0xC0 + toChar sc col - 1)) 0x0F) % 16
      = ((0xC0 + col - 1) % 16) % 16 := by
    rw [land_0F]
    cases sc <;> simp only [toChar] <;> omega
  have h1 : ¬ ((2 : Int) = 1) := by decide
  simp only [LCD_Set_Cursor, h, h1, if_true, if_false, LCD_Cmd_eq, cmdEvents_congr hz,
    cmdPins_congr hz, cmdEvents_congr hy, cmdPins_congr hy, List.append_assoc]

/-- The cursor operation on a valid position, in terms of `cursorByte`. -/
theorem LCD_Set_Cursor_valid (sc : Bool) (row col : Int) (hrow : row = 1 ∨ row = 2)
    (hc1 : 1 ≤ col) (hc2 : col ≤ 16) (s : St) :
    LCD_Set_Cursor sc row col s =
      { pins := cmdPins (cursorByte row col % 16) (cmdPins (cursorByte row col / 16) s.pins),
        log := s.log ++ (cmdEvents (cursorByte row col / 16) ++
          cmdEvents (cursorByte row col % 16)) } := by
  rcases hrow with rfl | rfl
  · have h : toChar sc 1 = 1 := by cases sc <;> decide
    have e1 : (0x80 + col - 1) % 256 / 16 = cursorByte 1 col / 16 := by
      norm_num [cursorByte]; omega
    have e2 : (0x80 + col - 1) % 16 = cursorByte 1 col % 16 := by
      norm_num [cursorByte]; omega
    rw [LCD_Set_Cursor_row1 sc 1 col h, e1, e2]
  · have h : toChar sc 2 = 2 := by cases sc <;> decide
    have e1 : (0xC0 + col - 1) % 256 / 16 = cursorByte 2 col / 16 := by
      norm_num [cursorByte]; omega
    have e2 : (0xC0 + col - 1) % 16 = cursorByte 2 col % 16 := by
      norm_num [cursorByte]; omega
    rw [LCD_Set_Cursor_row2 sc 2 col h, e1, e2]

/-- C3: for row 1 or 2 and column 1 .. 16, `LCD_Set_Cursor(row, col)` appends
exactly two command nibble transfers (each `RS := 0`, nibble, `EN` pulse of
4 ms): first the high nibble, then the low nibble of the byte
`base(row) + (col - 1)` with `base(1) = 0x80` and `base(2) = 0xC0`; the
controller latches exactly these two nibbles, both with `RS` low.  In
particular (1,1) sends 0x8 then 0x0, (2,1) sends 0xC then 0x0, (1,16) sends
0x8 then 0xF and (2,16) sends 0xC then 0xF. -/
theorem C3_LCD_Set_Cursor_address (sc : Bool) (row col : Int) (hrow : row = 1 ∨ row = 2)
    (hc1 : 1 ≤ col) (hc2 : col ≤ 16) (s : St) :
    trace (LCD_Set_Cursor sc row col) s =
      cmdEvents (((if row = 1 then 0x80 else 0xC0) + (col - 1)) / 16) ++
      cmdEvents (((if row = 1 then 0x80 else 0xC0) + (col - 1)) % 16) ∧
    latched s.pins (trace (LCD_Set_Cursor sc row col) s) =
      [(false, ((((if row = 1 then 0x80 else 0xC0) + (col - 1)) / 16)).toNat),
       (false, ((((if row = 1 then 0x80 else 0xC0) + (col - 1)) % 16)).toNat)] ∧
    latched s.pins (trace (LCD_Set_Cursor sc 1 1) s) = [(false, 0x8), (false, 0x0)] ∧
    latched s.pins (trace (LCD_Set_Cursor sc 2 1) s) = [(false, 0xC), (false, 0x0)] ∧
    latched s.pins (trace (LCD_Set_Cursor sc 1 16) s) = [(false, 0x8), (false, 0xF)] ∧
    latched s.pins (trace (LCD_Set_Cursor sc 2 16) s) = [(false, 0xC), (false, 0xF)] := by
  have gen : ∀ r c : Int, (r = 1 ∨ r = 2) → 1 ≤ c → c ≤ 16 →
      trace (LCD_Set_Cursor sc r c) s =
        cmdEvents (cursorByte r c / 16) ++ cmdEvents (cursorByte r c % 16) ∧
      latched s.pins (trace (LCD_Set_Cursor sc r c) s) =
        [(false, (cursorByte r c / 16).toNat), (false, (cursorByte r c % 16).toNat)] := by
    intro r c hr h1 h2
    have ht : trace (LCD_Set_Cursor sc r c) s =
        cmdEvents (cursorByte r c / 16) ++ cmdEvents (cursorByte r c % 16) := by
      apply trace_eq_of_log
      rw [LCD_Set_Cursor_valid sc r c hr h1 h2]
    have hb : 0 ≤ cursorByte r c ∧ cursorByte r c < 256 := by
      rcases hr with rfl | rfl <;> simp only [cursorByte] <;> norm_num <;> omega
    refine ⟨ht, ?_⟩
    rw [ht, latched_append, latched_cmdEvents _ (by omega) (by omega),
      latched_cmdEvents _ (by omega) (by omega)]
    rfl
  refine ⟨(gen row col hrow hc1 hc2).1, (gen row col hrow hc1 hc2).2, ?_, ?_, ?_, ?_⟩
  · exact (gen 1 1 (Or.inl rfl) (by decide) (by decide)).2
  · exact (gen 2 1 (Or.inr rfl) (by decide) (by decide)).2
  · exact (gen 1 16 (Or.inl rfl) (by decide) (by decide)).2
  · exact (gen 2 16 (Or.inr rfl) (by decide) (by decide)).2

/-- Witness for C3 at row 2, column 5 (byte 0xC4), unsigned `char`, all lines low. -/
theorem C3_LCD_Set_Cursor_address_witness :
    ((2 : Int) = 1 ∨ (2 : Int) = 2) ∧ (1 : Int) ≤ 5 ∧ (5 : Int) ≤ 16 ∧
    trace (LCD_Set_Cursor false 2 5) St.idle = cmdEvents 0xC ++ cmdEvents 0x4 ∧
    latched St.idle.pins (trace (LCD_Set_Cursor false 2 5) St.idle) =
      [(false, 0xC), (false, 0x4)] :=
  ⟨Or.inr rfl, by decide, by decide,
    (C3_LCD_Set_Cursor_address false 2 5 (Or.inr rfl) (by decide) (by decide) St.idle).1,
    (C3_LCD_Set_Cursor_address false 2 5 (Or.inr rfl) (by decide) (by decide) St.idle).2.1⟩

/-- C4: for every `char` value `row` other than 1 and 2 and every `col`,
`LCD_Set_Cursor(row, col)` returns the state unchanged: nothing is appended
to the log (no pin write, no delay, hence no command) and the line levels
are what they were. -/
theorem C4_LCD_Set_Cursor_other_row_noop (sc : Bool) (row col : Int) (hrow : isChar sc row)
    (h1 : row ≠ 1) (h2 : row ≠ 2) (s : St) :
    LCD_Set_Cursor sc row col s = s ∧
    trace (LCD_Set_Cursor sc row col) s = [] ∧
    (LCD_Set_Cursor sc row col s).pins = s.pins := by
  have h : LCD_Set_Cursor sc row col s = s := by
    simp only [LCD_Set_Cursor, toChar_of_isChar hrow, h1, h2, if_false]
  refine ⟨h, ?_, ?_⟩
  · simp [trace, h]
  · rw [h]

/-- Witness for C4 at row 3, column 5, unsigned `char`, all lines low. -/
theorem C4_LCD_Set_Cursor_other_row_noop_witness :
    isChar false 3 ∧ (3 : Int) ≠ 1 ∧ (3 : Int) ≠ 2 ∧
    LCD_Set_Cursor false 3 5 St.idle = St.idle ∧
    trace (LCD_Set_Cursor false 3 5) St.idle = [] :=
  ⟨by decide, by decide, by decide,
    (C4_LCD_Set_Cursor_other_row_noop false 3 5 (by decide) (by decide) (by decide) St.idle).1,
    (C4_LCD_Set_Cursor_other_row_noop false 3 5 (by decide) (by decide) (by decide) St.idle).2.1⟩

/-! ## C5 : clearing the display -/

theorem LCD_Clear_eq (sc : Bool) (s : St) :
    LCD_Clear sc s =
      { pins := cmdPins 1 (cmdPins 0 s.pins), log := s.log ++ (cmdEvents 0 ++ cmdEvents 1) } := by
  simp only [LCD_Clear, LCD_Cmd_eq, List.append_assoc]

/-- C5: for either signedness of `char` and every initial state, `LCD_Clear`
appends the same fixed sequence: command nibble 0 then command nibble 1, each
with `RS := 0` and an `EN` pulse of 4 ms, which the controller latches as the
nibbles 0 and 1 (the byte 0x01) with `RS` low.  A second call appends the
same sequence as the first, and the line levels after two calls are those
after one call. -/
theorem C5_LCD_Clear_idempotent (sc : Bool) (s : St) :
    trace (LCD_Clear sc) s =
      [Event.write Pin.RS false,
       Event.write Pin.D4 false, Event.write Pin.D5 false,
       Event.write Pin.D6 false, Event.write Pin.D7 false,
       Event.write Pin.EN true, Event.delay_ms 4, Event.write Pin.EN false,
       Event.write Pin.RS false,
       Event.write Pin.D4 true, Event.write Pin.D5 false,
       Event.write Pin.D6 false, Event.write Pin.D7 false,
       Event.write Pin.EN true, Event.delay_ms 4, Event.write Pin.EN false] ∧
    latched s.pins (trace (LCD_Clear sc) s) = [(false, 0), (false, 1)] ∧
    trace (LCD_Clear sc) (LCD_Clear sc s) = trace (LCD_Clear sc) s ∧
    (LCD_Clear sc (LCD_Clear sc s)).pins = (LCD_Clear sc s).pins := by
  have ht : ∀ t : St, trace (LCD_Clear sc) t = cmdEvents 0 ++ cmdEvents 1 := by
    intro t
    apply trace_eq_of_log
    rw [LCD_Clear_eq]
  refine ⟨?_, ?_, ?_, ?_⟩
  · rw [ht]; decide
  · rw [ht, latched_append, latched_cmdEvents 0 (by decide) (by decide),
      latched_cmdEvents 1 (by decide) (by decide)]
    rfl
  · rw [ht, ht]
  · simp only [LCD_Clear_eq]
    simp [cmdPins, portPins]

/-! ## C9 : writing a string -/

theorem traceOpt_eq_of_log {f : St → Option St} {s t : St} {es : List Event}
    (h : f s = some t) (hl : t.log = s.log ++ es) : trace? f s = some es := by
  simp [trace?, h, hl]

theorem toChar_ne_zero_of_byte (sc : Bool) (c : Int) (h0 : 0 < c) (h1 : c < 256) :
    toChar sc c ≠ 0 ∧ toChar sc c % 256 = c := by
  cases sc <;> simp only [toChar] <;> norm_num <;> omega

/-- An `int` of at least 16 bits reaches 32767. -/
theorem INT_MAX_ge (w : Nat) (hw : 16 ≤ w) : 32767 ≤ INT_MAX w := by
  have h : 2 ^ 15 ≤ 2 ^ (w - 1) := Nat.pow_le_pow_right (by norm_num) (by omega)
  have h2 : (2 : Nat) ^ 15 = 32768 := by norm_num
  unfold INT_MAX
  omega

/-- The loop entered with index `i` on bytes `body` followed by a NUL, when
the index can reach the NUL without overflow: it writes each byte of `body`
with `LCD_Write_Char`, stops at the NUL and returns. -/
theorem LCD_Write_String_loop_eq (sc : Bool) (w : Nat) (body rest : List Int)
    (hbody : ∀ c ∈ body, 0 < c ∧ c < 256) (i : Nat) (hi : i + body.length ≤ INT_MAX w)
    (s : St) :
    LCD_Write_String.loop sc w i (body ++ 0 :: rest) s =
      some { pins := replay s.pins (body.flatMap charEvents),
             log := s.log ++ body.flatMap charEvents } := by
  induction body generalizing s i with
  | nil =>
    have h : toChar sc 0 = 0 := by cases sc <;> decide
    simp [LCD_Write_String.loop, h, replay]
  | cons c cs ih =>
    have hc := hbody c (List.mem_cons_self c cs)
    obtain ⟨hne, hmod⟩ := toChar_ne_zero_of_byte sc c hc.1 hc.2
    have hcs : ∀ d ∈ cs, 0 < d ∧ d < 256 := fun d hd => hbody d (List.mem_cons_of_mem c hd)
    have hlt : i < INT_MAX w := by simp only [List.length_cons] at hi; omega
    have hi2 : i + 1 + cs.length ≤ INT_MAX w := by simp only [List.length_cons] at hi; omega
    simp only [List.cons_append, LCD_Write_String.loop, hne, ne_eq, not_false_eq_true, if_true,
      hlt]
    rw [LCD_Write_Char_eq, hmod]
    show LCD_Write_String.loop sc w (i + 1) (cs ++ 0 :: rest) _ = _
    rw [ih hcs (i + 1) hi2]
    simp [List.flatMap_cons, replay_append, replay_charEvents, List.append_assoc]

/-- A string whose bytes before the first NUL are `body`, at most `INT_MAX`
of them: `LCD_Write_String` writes each with `LCD_Write_Char`, stops at the
NUL and returns. -/
theorem LCD_Write_String_eq (sc : Bool) (w : Nat) (body rest : List Int)
    (hbody : ∀ c ∈ body, 0 < c ∧ c < 256) (hlen : body.length ≤ INT_MAX w) (s : St) :
    LCD_Write_String sc w (body ++ 0 :: rest) s =
      some { pins := replay s.pins (body.flatMap charEvents),
             log := s.log ++ body.flatMap charEvents } :=
  LCD_Write_String_loop_eq sc w body rest hbody 0 (by omega) s

/-- The loop entered with index `i` on more non-zero bytes than the index can
count: the increment overflows before a NUL is reached. -/
theorem LCD_Write_String_loop_overflow (sc : Bool) (w : Nat) (body rest : List Int)
    (hbody : ∀ c ∈ body, 0 < c ∧ c < 256) (i : Nat) (hi : INT_MAX w < i + body.length)
    (hle : i ≤ INT_MAX w) (s : St) :
    LCD_Write_String.loop sc w i (body ++ rest) s = none := by
  induction body generalizing s i with
  | nil => simp only [List.length_nil] at hi; omega
  | cons c cs ih =>
    have hc := hbody c (List.mem_cons_self c cs)
    obtain ⟨hne, _⟩ := toChar_ne_zero_of_byte sc c hc.1 hc.2
    have hcs : ∀ d ∈ cs, 0 < d ∧ d < 256 := fun d hd => hbody d (List.mem_cons_of_mem c hd)
    simp only [List.cons_append, LCD_Write_String.loop, hne, ne_eq, not_false_eq_true, if_true]
    by_cases hlt : i < INT_MAX w
    · simp only [hlt, if_true]
      exact ih hcs (i + 1) (by simp only [List.length_cons] at hi; omega) (by omega) _
    · simp only [hlt, if_false]

/-- What `LCD_Write_String` returns extends the log it was given. -/
theorem LCD_Write_String_loop_log (sc : Bool) (w : Nat) (txt : List Int) (i : Nat) (s t : St)
    (h : LCD_Write_String.loop sc w i txt s = some t) : ∃ es, t.log = s.log ++ es := by
  induction txt generalizing s i with
  | nil => simp [LCD_Write_String.loop] at h
  | cons b bs ih =>
    simp only [LCD_Write_String.loop] at h
    split at h
    · split at h
      · obtain ⟨es, hes⟩ := ih _ _ h
        rw [LCD_Write_Char_eq] at hes
        exact ⟨_, by rw [hes, List.append_assoc]⟩
      · exact absurd h (by simp)
    · have : s = t := by simpa using h
      exact ⟨[], by simp [this]⟩

theorem latched_flatMap_charEvents (body : List Int) (hbody : ∀ c ∈ body, 0 < c ∧ c < 256)
    (p : Pins) :
    latched p (body.flatMap charEvents) =
      body.flatMap fun c => [(true, (c / 16).toNat), (true, (c % 16).toNat)] := by
  induction body generalizing p with
  | nil => simp [latched]
  | cons c cs ih =>
    have hc := hbody c (List.mem_cons_self c cs)
    have hcs : ∀ d ∈ cs, 0 < d ∧ d < 256 := fun d hd => hbody d (List.mem_cons_of_mem c hd)
    rw [List.flatMap_cons, List.flatMap_cons, latched_append,
      latched_charEvents c (le_of_lt hc.1) hc.2, ih hcs]

theorem count_EN_flatMap_charEvents (body : List Int) :
    (body.flatMap charEvents).count (Event.write Pin.EN true) = 2 * body.length := by
  induction body with
  | nil => simp
  | cons c cs ih =>
    have h1 : (charEvents c).count (Event.write Pin.EN true) = 2 := by
      simp [charEvents, pulse40, portEvents, List.count_cons]
    rw [List.flatMap_cons, List.count_append, ih, h1, List.length_cons]
    ring

/-- Counterexample to C9 as stated, for a 16-bit `int`: on the NUL-terminated
string of 32768 (`INT_MAX + 1`) characters `'A'` the increment `i++` is
executed with `i = INT_MAX`, a signed overflow, so `LCD_Write_String` does
not return with the sequence of all its characters written. -/
theorem C9_LCD_Write_String_index_overflow :
    (∀ c ∈ List.replicate 32768 (0x41 : Int), 0 < c ∧ c < 256) ∧
    (List.replicate 32768 (0x41 : Int)).length = INT_MAX 16 + 1 ∧
    LCD_Write_String false 16 (List.replicate 32768 0x41 ++ 0 :: []) St.idle = none := by
  have hb : ∀ c ∈ List.replicate 32768 (0x41 : Int), 0 < c ∧ c < 256 := by
    intro c hc
    rw [List.eq_of_mem_replicate hc]
    decide
  have hm : INT_MAX 16 = 32767 := by decide
  refine ⟨hb, by rw [List.length_replicate, hm], ?_⟩
  exact LCD_Write_String_loop_overflow false 16 (List.replicate 32768 0x41) (0 :: []) hb 0
    (by rw [List.length_replicate, hm]; omega) (by omega) St.idle

/-- C9 as amended: for every memory content `body ++ NUL :: rest` whose bytes
`body` before the first NUL are non-zero bytes, at most `INT_MAX` of them,
`LCD_Write_String` returns, and what it appends is the concatenation, in
order, of the `LCD_Write_Char` sequences of the bytes of `body`: nothing for
the empty string, nothing that depends on what follows the NUL, with exactly
`2 * length body` writes of 1 to `EN` and as many nibbles latched by the
controller. -/
theorem C9_LCD_Write_String_chars (sc : Bool) (w : Nat) (body rest : List Int)
    (hbody : ∀ c ∈ body, 0 < c ∧ c < 256) (hlen : body.length ≤ INT_MAX w) (s : St) :
    (∃ t, LCD_Write_String sc w (body ++ 0 :: rest) s = some t) ∧
    trace? (LCD_Write_String sc w (body ++ 0 :: rest)) s =
      some (body.flatMap fun c => trace (LCD_Write_Char sc c) s) ∧
    trace? (LCD_Write_String sc w (0 :: rest)) s = some [] ∧
    (∀ rest2, trace? (LCD_Write_String sc w (body ++ 0 :: rest2)) s =
      trace? (LCD_Write_String sc w (body ++ 0 :: rest)) s) ∧
    (∃ es, trace? (LCD_Write_String sc w (body ++ 0 :: rest)) s = some es ∧
      es.count (Event.write Pin.EN true) = 2 * body.length ∧
      (latched s.pins es).length = 2 * body.length) := by
  have hfm : (body.flatMap fun c => trace (LCD_Write_Char sc c) s) = body.flatMap charEvents := by
    apply List.flatMap_congr
    intro c hc
    have h := hbody c hc
    apply trace_eq_of_log
    rw [LCD_Write_Char_eq, Int.emod_eq_of_lt (le_of_lt h.1) h.2]
  have ht : ∀ r, trace? (LCD_Write_String sc w (body ++ 0 :: r)) s =
      some (body.flatMap charEvents) := fun r =>
    traceOpt_eq_of_log (LCD_Write_String_eq sc w body r hbody hlen s) rfl
  refine ⟨⟨_, LCD_Write_String_eq sc w body rest hbody hlen s⟩, ?_, ?_, ?_, ?_⟩
  · rw [ht, hfm]
  · exact traceOpt_eq_of_log
      (LCD_Write_String_eq sc w [] rest (fun c hc => absurd hc (List.not_mem_nil c))
        (Nat.zero_le _) s) rfl
  · intro r; rw [ht, ht]
  · refine ⟨_, ht rest, count_EN_flatMap_charEvents body, ?_⟩
    rw [latched_flatMap_charEvents body hbody]
    clear hfm ht hbody hlen
    induction body with
    | nil => simp
    | cons c cs ih => simp [List.flatMap_cons, ih]; ring

/-- Witness for the amended C9 on the memory content `'O' 'K' NUL 'x'`,
unsigned `char`, 16-bit `int`. -/
theorem C9_LCD_Write_String_chars_witness :
    (∀ c ∈ [(0x4F : Int), 0x4B], 0 < c ∧ c < 256) ∧
    [(0x4F : Int), 0x4B].length ≤ INT_MAX 16 ∧
    trace? (LCD_Write_String false 16 ([0x4F, 0x4B] ++ 0 :: [0x78])) St.idle =
      some ([(0x4F : Int), 0x4B].flatMap fun c => trace (LCD_Write_Char false c) St.idle) :=
  ⟨by decide, by decide,
    (C9_LCD_Write_String_chars false 16 [0x4F, 0x4B] [0x78] (by decide) (by decide)
      St.idle).2.1⟩

/-! ## C7 : printing a string at a position -/

/-- Whatever its arguments, `LCD_Set_Cursor` only appends to the log. -/
theorem LCD_Set_Cursor_log (sc : Bool) (row col : Int) (s : St) :
    ∃ es, (LCD_Set_Cursor sc row col s).log = s.log ++ es := by
  by_cases h1 : toChar sc row = 1
  · exact ⟨_, by rw [LCD_Set_Cursor_row1 sc row col h1]⟩
  · by_cases h2 : toChar sc row = 2
    · exact ⟨_, by rw [LCD_Set_Cursor_row2 sc row col h2]⟩
    · exact ⟨[], by simp [LCD_Set_Cursor, h1, h2]⟩

theorem LCD_Print_trace (sc : Bool) (w : Nat) (body rest : List Int)
    (hbody : ∀ c ∈ body, 0 < c ∧ c < 256) (hlen : body.length ≤ INT_MAX w) (row col : Int)
    (s : St) :
    trace? (LCD_Print sc w (body ++ 0 :: rest) row col) s =
      some (trace (LCD_Set_Cursor sc row col) s ++ body.flatMap charEvents) := by
  obtain ⟨es, hes⟩ := LCD_Set_Cursor_log sc row col s
  have ht : trace (LCD_Set_Cursor sc row col) s = es := trace_eq_of_log hes
  rw [ht]
  have hp : LCD_Print sc w (body ++ 0 :: rest) row col s =
      LCD_Write_String sc w (body ++ 0 :: rest) (LCD_Set_Cursor sc row col s) := rfl
  refine traceOpt_eq_of_log (hp.trans
    (LCD_Write_String_eq sc w body rest hbody hlen (LCD_Set_Cursor sc row col s))) ?_
  simp [hes, List.append_assoc]

/-- On any memory content, returning or not, `LCD_Print` does what
`LCD_Set_Cursor` does and then what `LCD_Write_String` does from there. -/
theorem LCD_Print_trace_any (sc : Bool) (w : Nat) (txt : List Int) (row col : Int) (s : St) :
    trace? (LCD_Print sc w txt row col) s =
      (trace? (LCD_Write_String sc w txt) (LCD_Set_Cursor sc row col s)).map
        fun es => trace (LCD_Set_Cursor sc row col) s ++ es := by
  obtain ⟨es, hes⟩ := LCD_Set_Cursor_log sc row col s
  have ht : trace (LCD_Set_Cursor sc row col) s = es := trace_eq_of_log hes
  have hp : LCD_Print sc w txt row col s =
      LCD_Write_String sc w txt (LCD_Set_Cursor sc row col s) := rfl
  cases h : LCD_Write_String sc w txt (LCD_Set_Cursor sc row col s) with
  | none => simp [trace?, hp, h]
  | some t =>
    obtain ⟨es2, h2⟩ := LCD_Write_String_loop_log sc w txt 0 _ t h
    simp [trace?, hp, h, h2, hes, ht, List.append_assoc]

/-- C7: for every NUL-terminated string (bytes `body`, then NUL, with at
most `INT_MAX` bytes in `body` so that the loop index can count them) and
every `row`, `col`, `LCD_Print` returns and what it appends is what
`LCD_Set_Cursor(row, col)` appends followed by what `LCD_Write_String`
appends, and every nibble the controller latches during the string part is
latched with `RS` high.  On any memory content at all, `LCD_Print` appends
what `LCD_Set_Cursor` appends followed by what `LCD_Write_String` appends
from there, and returns exactly when `LCD_Write_String` does.  In particular
`LCD_Print("Hi", 2, 1)` sends the command nibbles 0xC, 0x0 (address 0xC0) and
then exactly the data bytes 0x48 and 0x69, which the controller latches as
0xC, 0x0 with `RS` low and 4, 8, 6, 9 with `RS` high. -/
theorem C7_LCD_Print_sequence (sc : Bool) (w : Nat) (hw : 16 ≤ w) (body rest : List Int)
    (hbody : ∀ c ∈ body, 0 < c ∧ c < 256) (hlen : body.length ≤ INT_MAX w) (row col : Int)
    (s : St) :
    (∃ es, trace? (LCD_Write_String sc w (body ++ 0 :: rest)) s = some es ∧
      trace? (LCD_Print sc w (body ++ 0 :: rest) row col) s =
        some (trace (LCD_Set_Cursor sc row col) s ++ es) ∧
      ∀ x ∈ latched (LCD_Set_Cursor sc row col s).pins es, x.1 = true) ∧
    trace? (LCD_Print sc w [0x48, 0x69, 0] 2 1) s =
      some (cmdEvents 0xC ++ cmdEvents 0x0 ++
        (trace (LCD_Write_Char sc 0x48) s ++ trace (LCD_Write_Char sc 0x69) s)) ∧
    latched s.pins (cmdEvents 0xC ++ cmdEvents 0x0 ++
        (trace (LCD_Write_Char sc 0x48) s ++ trace (LCD_Write_Char sc 0x69) s)) =
      [(false, 0xC), (false, 0x0), (true, 0x4), (true, 0x8), (true, 0x6), (true, 0x9)] ∧
    (∀ txt : List Int, trace? (LCD_Print sc w txt row col) s =
      (trace? (LCD_Write_String sc w txt) (LCD_Set_Cursor sc row col s)).map
        fun es => trace (LCD_Set_Cursor sc row col) s ++ es) := by
  have hmax := INT_MAX_ge w hw
  have hwc : ∀ c : Int, 0 ≤ c → c < 256 → trace (LCD_Write_Char sc c) s = charEvents c := by
    intro c h0 h1
    apply trace_eq_of_log
    rw [LCD_Write_Char_eq, Int.emod_eq_of_lt h0 h1]
  refine ⟨⟨body.flatMap charEvents, ?_, LCD_Print_trace sc w body rest hbody hlen row col s, ?_⟩,
    ?_, ?_, fun txt => LCD_Print_trace_any sc w txt row col s⟩
  · exact traceOpt_eq_of_log (LCD_Write_String_eq sc w body rest hbody hlen s) rfl
  · intro x hx
    rw [latched_flatMap_charEvents body hbody, List.mem_flatMap] at hx
    obtain ⟨c, _, hc⟩ := hx
    simp only [List.mem_cons, List.mem_singleton, List.not_mem_nil, or_false] at hc
    rcases hc with rfl | rfl <;> rfl
  · have h := LCD_Print_trace sc w [0x48, 0x69] [] (by decide)
      (by simp only [List.length_cons, List.length_nil]; omega) 2 1 s
    have hc : trace (LCD_Set_Cursor sc 2 1) s = cmdEvents 0xC ++ cmdEvents 0x0 := by
      apply trace_eq_of_log
      rw [LCD_Set_Cursor_valid sc 2 1 (Or.inr rfl) (by decide) (by decide)]
      rfl
    rw [hwc 0x48 (by decide) (by decide), hwc 0x69 (by decide) (by decide)]
    rw [hc] at h
    simpa using h
  · rw [hwc 0x48 (by decide) (by decide), hwc 0x69 (by decide) (by decide)]
    simp only [latched_append, latched_cmdEvents 0xC (by decide) (by decide),
      latched_cmdEvents 0x0 (by decide) (by decide),
      latched_charEvents 0x48 (by decide) (by decide),
      latched_charEvents 0x69 (by decide) (by decide)]
    decide

/-- Witness for C7 on the string "Hi" at row 2, column 1, unsigned `char`,
16-bit `int`. -/
theorem C7_LCD_Print_sequence_witness :
    16 ≤ 16 ∧ (∀ c ∈ [(0x48 : Int), 0x69], 0 < c ∧ c < 256) ∧
    [(0x48 : Int), 0x69].length ≤ INT_MAX 16 ∧
    trace? (LCD_Print false 16 [0x48, 0x69, 0] 2 1) St.idle =
      some (cmdEvents 0xC ++ cmdEvents 0x0 ++
        (trace (LCD_Write_Char false 0x48) St.idle ++
         trace (LCD_Write_Char false 0x69) St.idle)) :=
  ⟨by decide, by decide, by decide,
    (C7_LCD_Print_sequence false 16 (by decide) [0x48, 0x69] [] (by decide) (by decide) 2 1
      St.idle).2.1⟩

/-! ## C6 : printing an integer -/

/-- With enough fuel the digit loop yields the base-10 digits of a positive
number, most significant first. -/
theorem decimalDigits_eq_digits (fuel n : Nat) (acc : List Int) (h0 : 0 < n) (hf : n ≤ fuel) :
    decimalDigits fuel n acc =
      ((Nat.digits 10 n).reverse.map fun d => 0x30 + ((d : Nat) : Int)) ++ acc := by
  induction fuel generalizing n acc with
  | zero => omega
  | succ f ih =>
    rw [Nat.digits_def' (by norm_num) h0]
    by_cases hq : n / 10 = 0
    · simp [decimalDigits, hq]
    · have hq0 : 0 < n / 10 := Nat.pos_of_ne_zero hq
      have hqf : n / 10 ≤ f := by omega
      simp only [decimalDigits, hq, if_false]
      rw [ih (n / 10) _ hq0 hqf]
      simp

theorem decimalDigits_length (fuel n k : Nat) (acc : List Int) (hk : n < 10 ^ (k + 1)) :
    (decimalDigits fuel n acc).length ≤ k + 1 + acc.length := by
  induction fuel generalizing n k acc with
  | zero => simp [decimalDigits]
  | succ f ih =>
    by_cases hq : n / 10 = 0
    · simp only [decimalDigits, hq, if_true, List.length_cons]; omega
    · simp only [decimalDigits, hq, if_false]
      cases k with
      | zero => omega
      | succ j =>
        have hj : n / 10 < 10 ^ (j + 1) := by
          rw [pow_succ] at hk
          omega
        have := ih (n / 10) j ((0x30 + ((n % 10 : Nat) : Int)) :: acc) hj
        simp only [List.length_cons] at this
        omega

theorem decimalDigits_mem (fuel n : Nat) (acc : List Int)
    (hacc : ∀ c ∈ acc, 0 < c ∧ c < 256) :
    ∀ c ∈ decimalDigits fuel n acc, 0 < c ∧ c < 256 := by
  induction fuel generalizing n acc with
  | zero => simpa [decimalDigits] using hacc
  | succ f ih =>
    have hd : ∀ c ∈ (0x30 + ((n % 10 : Nat) : Int)) :: acc, 0 < c ∧ c < 256 := by
      intro c hc
      rcases List.mem_cons.mp hc with rfl | h
      · omega
      · exact hacc c h
    by_cases hq : n / 10 = 0
    · simpa only [decimalDigits, hq, if_true] using hd
    · simpa only [decimalDigits, hq, if_false] using ih (n / 10) _ hd

theorem fmt_i_mem (n : Int) : ∀ c ∈ fmt_i n, 0 < c ∧ c < 256 := by
  have h := decimalDigits_mem (n.natAbs + 1) n.natAbs [] (fun c hc => absurd hc (List.not_mem_nil c))
  intro c hc
  unfold fmt_i at hc
  split at hc
  · rcases List.mem_cons.mp hc with rfl | h2
    · decide
    · exact h c h2
  · exact h c hc

theorem fmt_i_length (n : Int) (h0 : -2147483648 ≤ n) (h1 : n ≤ 2147483647) :
    (fmt_i n).length ≤ 11 := by
  have hk : n.natAbs < 10 ^ (9 + 1) := by norm_num; omega
  have h := decimalDigits_length (n.natAbs + 1) n.natAbs 9 [] hk
  unfold fmt_i
  split
  · simp only [List.length_cons, List.length_nil] at h ⊢; omega
  · simp only [List.length_nil] at h; omega

theorem LCD_Print_Int_trace (sc : Bool) (w : Nat) (hw : 16 ≤ w) (n row col : Int)
    (h0 : -2147483648 ≤ n) (h1 : n ≤ 2147483647) (s : St) :
    trace? (LCD_Print_Int sc w n row col) s =
      some (trace (LCD_Set_Cursor sc row col) s ++ (fmt_i n).flatMap charEvents) := by
  have hlen := fmt_i_length n h0 h1
  have hmax := INT_MAX_ge w hw
  have hs : sprintf_i 16 n = some (fmt_i n ++ [0]) := by
    simp only [sprintf_i, List.length_append, List.length_singleton]
    rw [if_pos (by omega)]
  have hp : LCD_Print_Int sc w n row col s = LCD_Print sc w (fmt_i n ++ [0]) row col s := by
    simp only [LCD_Print_Int, hs, LCD_Print]
  have := LCD_Print_trace sc w (fmt_i n) [] (fmt_i_mem n) (by omega) row col s
  simpa [trace?, hp] using this

theorem fmt_i_pos (n : Int) (h : 0 < n) :
    fmt_i n = (Nat.digits 10 n.toNat).reverse.map fun d => 0x30 + ((d : Nat) : Int) := by
  have hn : ¬ n < 0 := by omega
  have ht : n.natAbs = n.toNat := by omega
  simp only [fmt_i, hn, if_false, ht]
  rw [decimalDigits_eq_digits _ _ _ (by omega) (by omega)]
  simp

theorem fmt_i_neg (n : Int) (h : n < 0) : fmt_i n = 0x2D :: fmt_i (-n) := by
  have hn : ¬ (-n < 0) := by omega
  simp only [fmt_i, h, hn, if_true, if_false, Int.natAbs_neg]

theorem fmt_i_head (n : Int) (h : 0 < n) : (fmt_i n).head? ≠ some 0x30 := by
  have hm : n.toNat ≠ 0 := by omega
  have hne : Nat.digits 10 n.toNat ≠ [] := Nat.digits_ne_nil_iff_ne_zero.mpr hm
  have hlast := Nat.getLast_digit_ne_zero 10 hm
  rw [fmt_i_pos n h, List.head?_map, List.head?_reverse, List.getLast?_eq_getLast _ hne]
  simp only [Option.map_some', ne_eq, Option.some.injEq]
  omega

/-- C6: for every `n` in the range of a 32-bit `int` (which contains the
16-bit range), an `int` of at least 16 bits as loop index, and every `row`,
`col`, `LCD_Print_Int` returns, and what it
appends is what `LCD_Set_Cursor(row, col)` appends followed by one
`LCD_Write_Char` sequence per character of the decimal text of `n`, in order.
The text is `"0"` for zero, `'-'` followed by the text of `-n` for negative
`n`, and for positive `n` its base-10 digits, most significant first, without
a leading `'0'`.  In particular `LCD_Print_Int(-5, 1, 1)` sends the command
nibbles 0x8, 0x0 (address 0x80) and then exactly `'-'` (0x2D) and `'5'` (0x35). -/
theorem C6_LCD_Print_Int_decimal (sc : Bool) (w : Nat) (hw : 16 ≤ w) (n row col : Int)
    (h0 : -2147483648 ≤ n) (h1 : n ≤ 2147483647) (s : St) :
    trace? (LCD_Print_Int sc w n row col) s =
      some (trace (LCD_Set_Cursor sc row col) s ++
        (fmt_i n).flatMap fun c => trace (LCD_Write_Char sc c) s) ∧
    fmt_i 0 = [0x30] ∧
    (n < 0 → fmt_i n = 0x2D :: fmt_i (-n)) ∧
    (0 < n → fmt_i n = (Nat.digits 10 n.toNat).reverse.map fun d => 0x30 + ((d : Nat) : Int)) ∧
    (0 < n → (fmt_i n).head? ≠ some 0x30) ∧
    trace? (LCD_Print_Int sc w (-5) 1 1) s =
      some (cmdEvents 0x8 ++ cmdEvents 0x0 ++
        (trace (LCD_Write_Char sc 0x2D) s ++ trace (LCD_Write_Char sc 0x35) s)) := by
  have hwc : ∀ c : Int, 0 < c ∧ c < 256 → trace (LCD_Write_Char sc c) s = charEvents c := by
    intro c h
    apply trace_eq_of_log
    rw [LCD_Write_Char_eq, Int.emod_eq_of_lt (le_of_lt h.1) h.2]
  have hfm : ((fmt_i n).flatMap fun c => trace (LCD_Write_Char sc c) s) =
      (fmt_i n).flatMap charEvents :=
    List.flatMap_congr fun c hc => hwc c (fmt_i_mem n c hc)
  refine ⟨?_, by decide, fmt_i_neg n, fmt_i_pos n, fmt_i_head n, ?_⟩
  · rw [hfm]; exact LCD_Print_Int_trace sc w hw n row col h0 h1 s
  · have h := LCD_Print_Int_trace sc w hw (-5) 1 1 (by decide) (by decide) s
    have hc : trace (LCD_Set_Cursor sc 1 1) s = cmdEvents 0x8 ++ cmdEvents 0x0 := by
      apply trace_eq_of_log
      rw [LCD_Set_Cursor_valid sc 1 1 (Or.inl rfl) (by decide) (by decide)]
      rfl
    have hf : fmt_i (-5) = [0x2D, 0x35] := by decide
    rw [hwc 0x2D (by decide), hwc 0x35 (by decide)]
    rw [hc, hf] at h
    simpa using h

/-- Witness for C6 at the number -5, row 1, column 1, unsigned `char`,
16-bit `int`. -/
theorem C6_LCD_Print_Int_decimal_witness :
    16 ≤ 16 ∧ (-2147483648 : Int) ≤ -5 ∧ (-5 : Int) ≤ 2147483647 ∧
    trace? (LCD_Print_Int false 16 (-5) 1 1) St.idle =
      some (trace (LCD_Set_Cursor false 1 1) St.idle ++
        (fmt_i (-5)).flatMap fun c => trace (LCD_Write_Char false c) St.idle) :=
  ⟨by decide, by decide, by decide,
    (C6_LCD_Print_Int_decimal false 16 (by decide) (-5) 1 1 (by decide) (by decide)
      St.idle).1⟩

/-! ## C8 : display shifts -/

theorem LCD_Shift_Left_eq (sc : Bool) (s : St) :
    LCD_Shift_Left sc s =
      { pins := cmdPins 8 (cmdPins 1 s.pins), log := s.log ++ (cmdEvents 1 ++ cmdEvents 8) } := by
  simp only [LCD_Shift_Left, LCD_Cmd_eq, List.append_assoc]

theorem LCD_Shift_Right_eq (sc : Bool) (s : St) :
    LCD_Shift_Right sc s =
      { pins := cmdPins 12 (cmdPins 1 s.pins),
        log := s.log ++ (cmdEvents 1 ++ cmdEvents 12) } := by
  simp only [LCD_Shift_Right, LCD_Cmd_eq, List.append_assoc]

/-- C8: for either signedness of `char` and every initial state,
`LCD_Shift_Left` appends command nibble 0x1 then command nibble 0x8 and the
controller latches 0x1, 0x8 with `RS` low (command 0x18); `LCD_Shift_Right`
appends command nibble 0x1 then 0xC and the controller latches 0x1, 0xC with
`RS` low (command 0x1C).  In the controller model where 0x18 moves the display
origin by one position and 0x1C moves it back by one, from every offset the
left shift moves the origin by one, the right shift by one the other way, and
`LCD_Shift_Left` followed by `LCD_Shift_Right` leaves the offset unchanged. -/
theorem C8_shift_codes_round_trip (sc : Bool) (s : St) (o : Int) :
    trace (LCD_Shift_Left sc) s = cmdEvents 0x1 ++ cmdEvents 0x8 ∧
    latched s.pins (trace (LCD_Shift_Left sc) s) = [(false, 0x1), (false, 0x8)] ∧
    trace (LCD_Shift_Right sc) s = cmdEvents 0x1 ++ cmdEvents 0xC ∧
    latched s.pins (trace (LCD_Shift_Right sc) s) = [(false, 0x1), (false, 0xC)] ∧
    (Controller.run { pending := none, offset := o }
      (latched s.pins (trace (LCD_Shift_Left sc) s))).offset = o + 1 ∧
    (Controller.run { pending := none, offset := o }
      (latched s.pins (trace (LCD_Shift_Right sc) s))).offset = o - 1 ∧
    Controller.run { pending := none, offset := o }
      (latched s.pins (trace (fun t => LCD_Shift_Right sc (LCD_Shift_Left sc t)) s)) =
      { pending := none, offset := o } := by
  have hl : trace (LCD_Shift_Left sc) s = cmdEvents 0x1 ++ cmdEvents 0x8 := by
    apply trace_eq_of_log
    rw [LCD_Shift_Left_eq]
  have hr : trace (LCD_Shift_Right sc) s = cmdEvents 0x1 ++ cmdEvents 0xC := by
    apply trace_eq_of_log
    rw [LCD_Shift_Right_eq]
  have hlr : trace (fun t => LCD_Shift_Right sc (LCD_Shift_Left sc t)) s =
      (cmdEvents 0x1 ++ cmdEvents 0x8) ++ (cmdEvents 0x1 ++ cmdEvents 0xC) := by
    apply trace_eq_of_log
    rw [LCD_Shift_Right_eq, LCD_Shift_Left_eq]
    simp [List.append_assoc]
  have ll : latched s.pins (cmdEvents 0x1 ++ cmdEvents 0x8) = [(false, 0x1), (false, 0x8)] := by
    rw [latched_append, latched_cmdEvents 1 (by decide) (by decide),
      latched_cmdEvents 8 (by decide) (by decide)]
    rfl
  have lr : ∀ p, latched p (cmdEvents 0x1 ++ cmdEvents 0xC) = [(false, 0x1), (false, 0xC)] := by
    intro p
    rw [latched_append, latched_cmdEvents 1 (by decide) (by decide),
      latched_cmdEvents 12 (by decide) (by decide)]
    rfl
  refine ⟨hl, ?_, hr, ?_, ?_, ?_, ?_⟩
  · rw [hl, ll]
  · rw [hr, lr]
  · rw [hl, ll]
    simp [Controller.run, Controller.latch, Controller.command]
  · rw [hr, lr]
    simp [Controller.run, Controller.latch, Controller.command]
  · rw [hlr, latched_append, ll, lr]
    simp [Controller.run, Controller.latch, Controller.command]

/-! ## C10 : which transfer path the operations use -/

theorem trace_LCD_Cmd (sc : Bool) (a : Int) (s : St) : trace (LCD_Cmd sc a) s = cmdEvents a := by
  apply trace_eq_of_log
  rw [LCD_Cmd_eq]

theorem trace_LCD_Write_Char (sc : Bool) (b : Int) (s : St) :
    trace (LCD_Write_Char sc b) s = charEvents (b % 256) := by
  apply trace_eq_of_log
  rw [LCD_Write_Char_eq]

/-- Counterexample to C10 as stated: started with all lines low, what
`LCD_Clear` appends is what `LCD_Cmd(0)` and `LCD_Cmd(1)` append; it waits
4 ms, never 40 us, and it is not a sequence of `LCD_Write_Char` transfers,
whatever bytes are chosen. -/
theorem C10_LCD_Clear_uses_LCD_Cmd :
    trace (LCD_Clear false) St.idle =
      trace (LCD_Cmd false 0) St.idle ++ trace (LCD_Cmd false 1) St.idle ∧
    Event.delay_ms 4 ∈ trace (LCD_Clear false) St.idle ∧
    Event.delay_us 40 ∉ trace (LCD_Clear false) St.idle ∧
    ¬ ∃ bs : List Int, trace (LCD_Clear false) St.idle =
        bs.flatMap fun b => trace (LCD_Write_Char false b) St.idle := by
  refine ⟨by decide, by decide, by decide, ?_⟩
  rintro ⟨bs, h⟩
  have hc : trace (LCD_Clear false) St.idle = cmdEvents 0 ++ cmdEvents 1 := by
    apply trace_eq_of_log
    rw [LCD_Clear_eq]
  rw [hc] at h
  cases bs with
  | nil => simp [cmdEvents] at h
  | cons b bs =>
    rw [List.flatMap_cons, trace_LCD_Write_Char] at h
    simp [cmdEvents, charEvents] at h

/-- C10 as amended: the commands issued after initialisation go through the
single-nibble transfer `LCD_Cmd` (`RS := 0`, one `EN` pulse of 4 ms), exactly
as the ten command nibbles of `LCD_Init` do: `LCD_Clear` is `LCD_Cmd(0)` then
`LCD_Cmd(1)`, `LCD_Shift_Left` is `LCD_Cmd(1)` then `LCD_Cmd(8)`,
`LCD_Shift_Right` is `LCD_Cmd(1)` then `LCD_Cmd(0xC)`, and `LCD_Set_Cursor`
is `LCD_Cmd` of the high nibble then `LCD_Cmd` of the low nibble of
`0x80 + col - 1` for row 1 and of `0xC0 + col - 1` for row 2, and nothing for
any other row.  Character output goes through the two-nibble transfer
`LCD_Write_Char` (`RS := 1`, two `EN` pulses of 40 us): `LCD_Write_String`
is one `LCD_Write_Char` per character, `LCD_Print` is `LCD_Set_Cursor`
followed by one `LCD_Write_Char` per character, `LCD_Print_Int` is
`LCD_Set_Cursor` followed by one `LCD_Write_Char` per character of the
decimal text (strings NUL-terminated with at most `INT_MAX` characters, the
number in the 32-bit range, `int` at least 16 bits wide). -/
theorem C10_transfer_paths (sc : Bool) (w : Nat) (hw : 16 ≤ w) (row col : Int)
    (body rest : List Int) (hbody : ∀ c ∈ body, 0 < c ∧ c < 256)
    (hlen : body.length ≤ INT_MAX w) (n : Int) (h0 : -2147483648 ≤ n)
    (h1 : n ≤ 2147483647) (s : St) :
    trace (LCD_Clear sc) s = trace (LCD_Cmd sc 0) s ++ trace (LCD_Cmd sc 1) s ∧
    trace (LCD_Shift_Left sc) s = trace (LCD_Cmd sc 0x01) s ++ trace (LCD_Cmd sc 0x08) s ∧
    trace (LCD_Shift_Right sc) s = trace (LCD_Cmd sc 0x01) s ++ trace (LCD_Cmd sc 0x0C) s ∧
    (toChar sc row = 1 → trace (LCD_Set_Cursor sc row col) s =
      trace (LCD_Cmd sc ((0x80 + col - 1) % 256 / 16)) s ++
      trace (LCD_Cmd sc ((0x80 + col - 1) % 16)) s) ∧
    (toChar sc row = 2 → trace (LCD_Set_Cursor sc row col) s =
      trace (LCD_Cmd sc ((0xC0 + col - 1) % 256 / 16)) s ++
      trace (LCD_Cmd sc ((0xC0 + col - 1) % 16)) s) ∧
    (toChar sc row ≠ 1 → toChar sc row ≠ 2 → trace (LCD_Set_Cursor sc row col) s = []) ∧
    trace (LCD_Init sc) s =
      trace (LCD_Port sc 0x00) s ++ [Event.delay_ms 20] ++
      trace (LCD_Cmd sc 0x03) s ++ [Event.delay_ms 5] ++
      trace (LCD_Cmd sc 0x03) s ++ [Event.delay_ms 11] ++
      trace (LCD_Cmd sc 0x03) s ++ trace (LCD_Cmd sc 0x02) s ++ trace (LCD_Cmd sc 0x02) s ++
      trace (LCD_Cmd sc 0x08) s ++ trace (LCD_Cmd sc 0x00) s ++ trace (LCD_Cmd sc 0x0C) s ++
      trace (LCD_Cmd sc 0x00) s ++ trace (LCD_Cmd sc 0x06) s ∧
    trace? (LCD_Write_String sc w (body ++ 0 :: rest)) s =
      some (body.flatMap fun c => trace (LCD_Write_Char sc c) s) ∧
    trace? (LCD_Print sc w (body ++ 0 :: rest) row col) s =
      some (trace (LCD_Set_Cursor sc row col) s ++
        body.flatMap fun c => trace (LCD_Write_Char sc c) s) ∧
    trace? (LCD_Print_Int sc w n row col) s =
      some (trace (LCD_Set_Cursor sc row col) s ++
        (fmt_i n).flatMap fun c => trace (LCD_Write_Char sc c) s) ∧
    (∀ a : Int, trace (LCD_Cmd sc a) s =
      Event.write Pin.RS false :: portEvents a ++
        [Event.write Pin.EN true, Event.delay_ms 4, Event.write Pin.EN false]) ∧
    (∀ c : Int, 0 ≤ c → c < 256 → trace (LCD_Write_Char sc c) s =
      Event.write Pin.RS true :: portEvents (c / 16) ++
        [Event.write Pin.EN true, Event.delay_us 40, Event.write Pin.EN false] ++
        portEvents (c % 16) ++
        [Event.write Pin.EN true, Event.delay_us 40, Event.write Pin.EN false]) := by
  have hwc : ∀ c : Int, 0 ≤ c → c < 256 → trace (LCD_Write_Char sc c) s = charEvents c := by
    intro c hc0 hc1
    rw [trace_LCD_Write_Char, Int.emod_eq_of_lt hc0 hc1]
  have hfb : (body.flatMap fun c => trace (LCD_Write_Char sc c) s) = body.flatMap charEvents :=
    List.flatMap_congr fun c hc => hwc c (le_of_lt (hbody c hc).1) (hbody c hc).2
  have hfn : ((fmt_i n).flatMap fun c => trace (LCD_Write_Char sc c) s) =
      (fmt_i n).flatMap charEvents :=
    List.flatMap_congr fun c hc => hwc c (le_of_lt (fmt_i_mem n c hc).1) (fmt_i_mem n c hc).2
  refine ⟨?_, ?_, ?_, ?_, ?_, ?_, ?_, ?_, ?_, ?_, ?_, ?_⟩
  · simp only [trace_LCD_Cmd]
    exact trace_eq_of_log (by rw [LCD_Clear_eq])
  · simp only [trace_LCD_Cmd]
    exact trace_eq_of_log (by rw [LCD_Shift_Left_eq])
  · simp only [trace_LCD_Cmd]
    exact trace_eq_of_log (by rw [LCD_Shift_Right_eq])
  · intro hr
    simp only [trace_LCD_Cmd]
    exact trace_eq_of_log (by rw [LCD_Set_Cursor_row1 sc row col hr])
  · intro hr
    simp only [trace_LCD_Cmd]
    exact trace_eq_of_log (by rw [LCD_Set_Cursor_row2 sc row col hr])
  · intro hr1 hr2
    simp [trace, LCD_Set_Cursor, hr1, hr2]
  · have hp : trace (LCD_Port sc 0x00) s = portEvents 0 :=
      trace_eq_of_log (by rw [LCD_Port_eq])
    simp only [trace_LCD_Cmd, hp]
    rw [trace_eq_of_log (LCD_Init_log sc s)]
  · rw [hfb]
    exact traceOpt_eq_of_log (LCD_Write_String_eq sc w body rest hbody hlen s) rfl
  · rw [hfb]
    exact LCD_Print_trace sc w body rest hbody hlen row col s
  · rw [hfn]
    exact LCD_Print_Int_trace sc w hw n row col h0 h1 s
  · intro a
    rw [trace_LCD_Cmd]
    rfl
  · intro c hc0 hc1
    rw [hwc c hc0 hc1]
    rfl

/-- Witness for the amended C10 on row 2, column 3, the string "A" and the
number 7, unsigned `char`, 16-bit `int`, all lines low. -/
theorem C10_transfer_paths_witness :
    16 ≤ 16 ∧ (∀ c ∈ [(0x41 : Int)], 0 < c ∧ c < 256) ∧
    [(0x41 : Int)].length ≤ INT_MAX 16 ∧ (-2147483648 : Int) ≤ 7 ∧ (7 : Int) ≤ 2147483647 ∧
    trace (LCD_Clear false) St.idle =
      trace (LCD_Cmd false 0) St.idle ++ trace (LCD_Cmd false 1) St.idle ∧
    (toChar false 2 = 2 → trace (LCD_Set_Cursor false 2 3) St.idle =
      trace (LCD_Cmd false ((0xC0 + 3 - 1) % 256 / 16)) St.idle ++
      trace (LCD_Cmd false ((0xC0 + 3 - 1) % 16)) St.idle) ∧
    trace? (LCD_Print false 16 ([0x41] ++ 0 :: []) 2 3) St.idle =
      some (trace (LCD_Set_Cursor false 2 3) St.idle ++
        [(0x41 : Int)].flatMap fun c => trace (LCD_Write_Char false c) St.idle) :=
  ⟨by decide, by decide, by decide, by decide, by decide,
    (C10_transfer_paths false 16 (by decide) 2 3 [0x41] [] (by decide) (by decide) 7
      (by decide) (by decide) St.idle).1,
    (C10_transfer_paths false 16 (by decide) 2 3 [0x41] [] (by decide) (by decide) 7
      (by decide) (by decide) St.idle).2.2.2.2.1,
    (C10_transfer_paths false 16 (by decide) 2 3 [0x41] [] (by decide) (by decide) 7
      (by decide) (by decide) St.idle).2.2.2.2.2.2.2.2.1⟩

/-! ## C12 : the command nibble transfer -/

/-- C12: for every argument `a` (in particular every byte) and either
signedness of `char`, `LCD_Cmd(a)` appends exactly `RS := 0`, the low nibble
`a mod 16` on `D4 .. D7`, `EN := 1`, a 4 ms wait and `EN := 0`, in this order;
`LCD_Cmd(a)` and `LCD_Cmd(a mod 16)` append the same sequence and lead to the
same state. -/
theorem C12_LCD_Cmd_low_nibble (sc : Bool) (a : Int) (s : St) :
    trace (LCD_Cmd sc a) s =
      [Event.write Pin.RS false,
       Event.write Pin.D4 (bit (a % 16) 0), Event.write Pin.D5 (bit (a % 16) 1),
       Event.write Pin.D6 (bit (a % 16) 2), Event.write Pin.D7 (bit (a % 16) 3),
       Event.write Pin.EN true, Event.delay_ms 4, Event.write Pin.EN false] ∧
    trace (LCD_Cmd sc a) s = trace (LCD_Cmd sc (a % 16)) s ∧
    LCD_Cmd sc a s = LCD_Cmd sc (a % 16) s := by
  have h : a % 16 = a % 16 % 16 := (Int.emod_emod_of_dvd a (dvd_refl 16)).symm
  refine ⟨?_, ?_, ?_⟩
  · rw [trace_LCD_Cmd, cmdEvents_congr h]
    rfl
  · rw [trace_LCD_Cmd, trace_LCD_Cmd, cmdEvents_congr h]
  · rw [LCD_Cmd_eq, LCD_Cmd_eq, cmdEvents_congr h, cmdPins_congr h]

/-! ## C13 : driving the data lines -/

/-- C13: for every argument `pin`, either signedness of `char` and every
state, after `LCD_Port(pin)` the line `D4` holds bit 0, `D5` bit 1, `D6` bit 2
and `D7` bit 3 of `pin`, whatever they held before; `RS` and `EN` hold what
they held before; and the resulting state does not depend on bits 4 and up
of `pin`: it is the state reached with `pin mod 16`, and adding any multiple
of 16 to `pin` changes nothing. -/
theorem C13_LCD_Port_frame (sc : Bool) (pin : Int) (s : St) :
    (LCD_Port sc pin s).pins.D4 = bit pin 0 ∧
    (LCD_Port sc pin s).pins.D5 = bit pin 1 ∧
    (LCD_Port sc pin s).pins.D6 = bit pin 2 ∧
    (LCD_Port sc pin s).pins.D7 = bit pin 3 ∧
    (LCD_Port sc pin s).pins.RS = s.pins.RS ∧
    (LCD_Port sc pin s).pins.EN = s.pins.EN ∧
    LCD_Port sc pin s = LCD_Port sc (pin % 16) s ∧
    ∀ k : Int, LCD_Port sc (pin + 16 * k) s = LCD_Port sc pin s := by
  have h : pin % 16 = pin % 16 % 16 := (Int.emod_emod_of_dvd pin (dvd_refl 16)).symm
  refine ⟨?_, ?_, ?_, ?_, ?_, ?_, ?_, ?_⟩
  · rw [LCD_Port_eq]; rfl
  · rw [LCD_Port_eq]; rfl
  · rw [LCD_Port_eq]; rfl
  · rw [LCD_Port_eq]; rfl
  · rw [LCD_Port_eq]; rfl
  · rw [LCD_Port_eq]; rfl
  · rw [LCD_Port_eq, LCD_Port_eq, portEvents_congr h, portPins_congr h]
  · intro k
    have hk : (pin + 16 * k) % 16 = pin % 16 := by omega
    rw [LCD_Port_eq, LCD_Port_eq, portEvents_congr hk, portPins_congr hk]

/-! ## C11 : the transfer protocol -/

theorem protocol_append (en : Bool) (xs ys : List Event) :
    protocol en (xs ++ ys) = (protocol en xs).bind fun e => protocol e ys := by
  induction xs generalizing en with
  | nil => simp [protocol]
  | cons e es ih =>
    cases e with
    | write p v =>
      simp only [List.cons_append, protocol]
      split
      · split
        · rfl
        · exact ih v
      · split
        · rfl
        · exact ih en
    | delay_ms n => simpa only [List.cons_append, protocol] using ih en
    | delay_us n => simpa only [List.cons_append, protocol] using ih en

theorem protocol_portEvents (n : Int) : protocol false (portEvents n) = some false := by
  simp [protocol, portEvents]

theorem protocol_cmdEvents (n : Int) : protocol false (cmdEvents n) = some false := by
  simp [protocol, cmdEvents, portEvents]

theorem protocol_charEvents (b : Int) : protocol false (charEvents b) = some false := by
  simp [protocol, charEvents, pulse40, portEvents]

theorem protocol_flatMap {α : Type} (f : α → List Event) (l : List α)
    (h : ∀ x ∈ l, protocol false (f x) = some false) :
    protocol false (l.flatMap f) = some false := by
  induction l with
  | nil => simp [protocol]
  | cons x xs ih =>
    rw [List.flatMap_cons, protocol_append, h x (List.mem_cons_self x xs)]
    exact ih fun y hy => h y (List.mem_cons_of_mem x hy)

/-- Whatever its arguments, `LCD_Set_Cursor` performs a sequence of command
nibble transfers and leaves `EN` low when it found it low. -/
theorem LCD_Set_Cursor_cmds (sc : Bool) (row col : Int) (s : St) (hen : s.pins.EN = false) :
    (∃ ns : List Int, trace (LCD_Set_Cursor sc row col) s = ns.flatMap cmdEvents) ∧
    (LCD_Set_Cursor sc row col s).pins.EN = false := by
  by_cases h1 : toChar sc row = 1
  · refine ⟨⟨[(0x80 + col - 1) % 256 / 16, (0x80 + col - 1) % 16], ?_⟩, ?_⟩
    · rw [trace_eq_of_log (by rw [LCD_Set_Cursor_row1 sc row col h1])]
      simp
    · rw [LCD_Set_Cursor_row1 sc row col h1]; rfl
  · by_cases h2 : toChar sc row = 2
    · refine ⟨⟨[(0xC0 + col - 1) % 256 / 16, (0xC0 + col - 1) % 16], ?_⟩, ?_⟩
      · rw [trace_eq_of_log (by rw [LCD_Set_Cursor_row2 sc row col h2])]
        simp
      · rw [LCD_Set_Cursor_row2 sc row col h2]; rfl
    · have h : LCD_Set_Cursor sc row col s = s := by simp [LCD_Set_Cursor, h1, h2]
      exact ⟨⟨[], by simp [trace, h]⟩, by rw [h, hen]⟩

theorem replay_chars_EN (body : List Int) (p : Pins) (hen : p.EN = false) :
    (replay p (body.flatMap charEvents)).EN = false := by
  induction body generalizing p with
  | nil => simpa [replay] using hen
  | cons c cs ih =>
    rw [List.flatMap_cons, replay_append, replay_charEvents]
    exact ih _ rfl

/-- A string written from a state with `EN` low: the loop returns, what it
appends obeys the protocol, and `EN` is low at the end. -/
theorem LCD_Write_String_protocol (sc : Bool) (w : Nat) (body rest : List Int)
    (hbody : ∀ c ∈ body, 0 < c ∧ c < 256) (hlen : body.length ≤ INT_MAX w) (s : St)
    (hen : s.pins.EN = false) :
    ∃ t, LCD_Write_String sc w (body ++ 0 :: rest) s = some t ∧
      t.log = s.log ++ body.flatMap charEvents ∧
      protocol false (body.flatMap charEvents) = some false ∧ t.pins.EN = false :=
  ⟨_, LCD_Write_String_eq sc w body rest hbody hlen s, rfl,
    protocol_flatMap charEvents body (fun c _ => protocol_charEvents c),
    replay_chars_EN body s.pins hen⟩

theorem LCD_Print_protocol (sc : Bool) (w : Nat) (body rest : List Int)
    (hbody : ∀ c ∈ body, 0 < c ∧ c < 256) (hlen : body.length ≤ INT_MAX w) (row col : Int)
    (s : St) (hen : s.pins.EN = false) :
    ∃ t es, LCD_Print sc w (body ++ 0 :: rest) row col s = some t ∧
      trace? (LCD_Print sc w (body ++ 0 :: rest) row col) s = some es ∧
      protocol false es = some false ∧ t.pins.EN = false := by
  obtain ⟨⟨ns, hns⟩, hen2⟩ := LCD_Set_Cursor_cmds sc row col s hen
  obtain ⟨t, ht, _, hp, hte⟩ :=
    LCD_Write_String_protocol sc w body rest hbody hlen (LCD_Set_Cursor sc row col s) hen2
  refine ⟨t, _, ht, LCD_Print_trace sc w body rest hbody hlen row col s, ?_, hte⟩
  rw [hns, protocol_append, protocol_flatMap cmdEvents ns (fun n _ => protocol_cmdEvents n)]
  exact hp

/-- For a number in the 32-bit range `sprintf` fits the buffer, so
`LCD_Print_Int` is `LCD_Print` of the formatted text. -/
theorem LCD_Print_Int_eq_Print (sc : Bool) (w : Nat) (n row col : Int) (h0 : -2147483648 ≤ n)
    (h1 : n ≤ 2147483647) (s : St) :
    LCD_Print_Int sc w n row col s = LCD_Print sc w (fmt_i n ++ 0 :: []) row col s := by
  have hlen := fmt_i_length n h0 h1
  have hs : sprintf_i 16 n = some (fmt_i n ++ [0]) := by
    simp only [sprintf_i, List.length_append, List.length_singleton]
    rw [if_pos (by omega)]
  simp only [LCD_Print_Int, hs, LCD_Print]

/-- On any memory content and from any index: when the loop of
`LCD_Write_String` returns, it has only appended to the log, what it appended
obeys the protocol, and `EN` is low. -/
theorem LCD_Write_String_loop_protocol_any (sc : Bool) (w : Nat) (txt : List Int) (i : Nat)
    (s t : St) (hen : s.pins.EN = false) (h : LCD_Write_String.loop sc w i txt s = some t) :
    ∃ es, t.log = s.log ++ es ∧ protocol false es = some false ∧ t.pins.EN = false := by
  induction txt generalizing s i with
  | nil => simp [LCD_Write_String.loop] at h
  | cons b bs ih =>
    simp only [LCD_Write_String.loop] at h
    split at h
    · split at h
      · rw [LCD_Write_Char_eq] at h
        obtain ⟨es, hes, hp, hte⟩ := ih (i + 1) _ rfl h
        refine ⟨charEvents (toChar sc b % 256) ++ es, ?_, ?_, hte⟩
        · rw [hes, List.append_assoc]
        · rw [protocol_append, protocol_charEvents]
          exact hp
      · exact absurd h (by simp)
    · have hst : s = t := by simpa using h
      exact ⟨[], by simp [hst], rfl, by rw [← hst, hen]⟩

/-- On any memory content: when `LCD_Print` returns, what it appended obeys
the protocol and `EN` is low. -/
theorem LCD_Print_protocol_any (sc : Bool) (w : Nat) (txt : List Int) (row col : Int)
    (s t : St) (hen : s.pins.EN = false) (h : LCD_Print sc w txt row col s = some t) :
    protocol false (t.log.drop s.log.length) = some false ∧ t.pins.EN = false := by
  obtain ⟨⟨ns, hns⟩, hen2⟩ := LCD_Set_Cursor_cmds sc row col s hen
  obtain ⟨cs, hcs⟩ := LCD_Set_Cursor_log sc row col s
  have hcn : cs = ns.flatMap cmdEvents := by rw [← hns, trace_eq_of_log hcs]
  have h2 : LCD_Write_String.loop sc w 0 txt (LCD_Set_Cursor sc row col s) = some t := h
  obtain ⟨es, hes, hp, hte⟩ := LCD_Write_String_loop_protocol_any sc w txt 0 _ t hen2 h2
  refine ⟨?_, hte⟩
  rw [hes, hcs, List.append_assoc, List.drop_left, hcn, protocol_append,
    protocol_flatMap cmdEvents ns (fun n _ => protocol_cmdEvents n)]
  exact hp

/-- C11: started with `EN` low, every public operation obeys the transfer
protocol: in what it appends, the writes to `EN` alternate 1, 0, 1, 0, ...,
no write to `RS` or to a data line happens while `EN` is high, and `EN` is
low at the end, in the sequence and on the line.  This holds for `LCD_Init`,
`LCD_Clear`, `LCD_Shift_Left`, `LCD_Shift_Right`, for `LCD_Set_Cursor` with
any `row`, `col`, for `LCD_Write_String` and `LCD_Print` on any
NUL-terminated string of at most `INT_MAX` characters (so that the `int`
loop index, at least 16 bits wide, can count them), and for `LCD_Print_Int`
on any number of the 32-bit (hence also 16-bit) `int` range; the last three
return.  Moreover, on any arguments whatsoever (any memory content, any
number), whenever `LCD_Write_String`, `LCD_Print` or `LCD_Print_Int` returns,
what it appended obeys the protocol and `EN` is low. -/
theorem C11_transfer_protocol (sc : Bool) (w : Nat) (hw : 16 ≤ w) (s : St)
    (hen : s.pins.EN = false) (row col : Int) (body rest : List Int)
    (hbody : ∀ c ∈ body, 0 < c ∧ c < 256) (hlen : body.length ≤ INT_MAX w)
    (n : Int) (h0 : -2147483648 ≤ n) (h1 : n ≤ 2147483647) :
    (protocol false (trace (LCD_Init sc) s) = some false ∧
      (LCD_Init sc s).pins.EN = false) ∧
    (protocol false (trace (LCD_Clear sc) s) = some false ∧
      (LCD_Clear sc s).pins.EN = false) ∧
    (protocol false (trace (LCD_Set_Cursor sc row col) s) = some false ∧
      (LCD_Set_Cursor sc row col s).pins.EN = false) ∧
    (protocol false (trace (LCD_Shift_Left sc) s) = some false ∧
      (LCD_Shift_Left sc s).pins.EN = false) ∧
    (protocol false (trace (LCD_Shift_Right sc) s) = some false ∧
      (LCD_Shift_Right sc s).pins.EN = false) ∧
    (∃ t es, LCD_Write_String sc w (body ++ 0 :: rest) s = some t ∧
      trace? (LCD_Write_String sc w (body ++ 0 :: rest)) s = some es ∧
      protocol false es = some false ∧ t.pins.EN = false) ∧
    (∃ t es, LCD_Print sc w (body ++ 0 :: rest) row col s = some t ∧
      trace? (LCD_Print sc w (body ++ 0 :: rest) row col) s = some es ∧
      protocol false es = some false ∧ t.pins.EN = false) ∧
    (∃ t es, LCD_Print_Int sc w n row col s = some t ∧
      trace? (LCD_Print_Int sc w n row col) s = some es ∧
      protocol false es = some false ∧ t.pins.EN = false) ∧
    (∀ (txt : List Int) (t : St), LCD_Write_String sc w txt s = some t →
      protocol false (t.log.drop s.log.length) = some false ∧ t.pins.EN = false) ∧
    (∀ (txt : List Int) (t : St), LCD_Print sc w txt row col s = some t →
      protocol false (t.log.drop s.log.length) = some false ∧ t.pins.EN = false) ∧
    (∀ (m : Int) (t : St), LCD_Print_Int sc w m row col s = some t →
      protocol false (t.log.drop s.log.length) = some false ∧ t.pins.EN = false) := by
  have hc := fun n => protocol_cmdEvents n
  have hmax := INT_MAX_ge w hw
  refine ⟨⟨?_, ?_⟩, ⟨?_, ?_⟩, ⟨?_, ?_⟩, ⟨?_, ?_⟩, ⟨?_, ?_⟩, ?_, ?_, ?_, ?_, ?_, ?_⟩
  · rw [trace_eq_of_log (LCD_Init_log sc s)]
    simp [protocol_append, hc, protocol_portEvents, protocol]
  · simp [LCD_Init, LCD_Cmd_eq, cmdPins]
  · rw [trace_eq_of_log (by rw [LCD_Clear_eq])]
    simp [protocol_append, hc]
  · rw [LCD_Clear_eq]; rfl
  · obtain ⟨ns, hns⟩ := (LCD_Set_Cursor_cmds sc row col s hen).1
    rw [hns]
    exact protocol_flatMap cmdEvents ns fun n _ => hc n
  · exact (LCD_Set_Cursor_cmds sc row col s hen).2
  · rw [trace_eq_of_log (by rw [LCD_Shift_Left_eq])]
    simp [protocol_append, hc]
  · rw [LCD_Shift_Left_eq]; rfl
  · rw [trace_eq_of_log (by rw [LCD_Shift_Right_eq])]
    simp [protocol_append, hc]
  · rw [LCD_Shift_Right_eq]; rfl
  · obtain ⟨t, ht, hl, hp, hte⟩ := LCD_Write_String_protocol sc w body rest hbody hlen s hen
    exact ⟨t, _, ht, traceOpt_eq_of_log ht hl, hp, hte⟩
  · exact LCD_Print_protocol sc w body rest hbody hlen row col s hen
  · have hfun : LCD_Print_Int sc w n row col s =
        LCD_Print sc w (fmt_i n ++ 0 :: []) row col s :=
      LCD_Print_Int_eq_Print sc w n row col h0 h1 s
    have htr : trace? (LCD_Print_Int sc w n row col) s =
        trace? (LCD_Print sc w (fmt_i n ++ 0 :: []) row col) s := by
      simp only [trace?, hfun]
    have hl := fmt_i_length n h0 h1
    rw [hfun, htr]
    exact LCD_Print_protocol sc w (fmt_i n) [] (fmt_i_mem n) (by omega) row col s hen
  · intro txt t h
    obtain ⟨es, hes, hp, hte⟩ := LCD_Write_String_loop_protocol_any sc w txt 0 s t hen h
    refine ⟨?_, hte⟩
    rw [hes, List.drop_left]
    exact hp
  · intro txt t h
    exact LCD_Print_protocol_any sc w txt row col s t hen h
  · intro m t h
    cases hs : sprintf_i 16 m with
    | none => simp [LCD_Print_Int, hs] at h
    | some buff =>
      have h2 : LCD_Print sc w buff row col s = some t := by
        simpa [LCD_Print_Int, hs, LCD_Print] using h
      exact LCD_Print_protocol_any sc w buff row col s t hen h2

/-- Witness for C11 from all lines low, unsigned `char`, 16-bit `int`,
position (1, 1), the string "A" and the number 42. -/
theorem C11_transfer_protocol_witness :
    16 ≤ 16 ∧ St.idle.pins.EN = false ∧ (∀ c ∈ [(0x41 : Int)], 0 < c ∧ c < 256) ∧
    [(0x41 : Int)].length ≤ INT_MAX 16 ∧
    (-2147483648 : Int) ≤ 42 ∧ (42 : Int) ≤ 2147483647 ∧
    protocol false (trace (LCD_Init false) St.idle) = some false ∧
    (LCD_Init false St.idle).pins.EN = false :=
  ⟨by decide, rfl, by decide, by decide, by decide, by decide,
    (C11_transfer_protocol false 16 (by decide) St.idle rfl 1 1 [0x41] [] (by decide)
      (by decide) 42 (by decide) (by decide)).1⟩

/-! ## C14 : the address byte of a cursor position -/

/-- The single byte the controller assembles from `LCD_Set_Cursor` on a valid
position. -/
theorem bytesOf_LCD_Set_Cursor (sc : Bool) (row col : Int) (hrow : row = 1 ∨ row = 2)
    (hc1 : 1 ≤ col) (hc2 : col ≤ 16) (s : St) :
    bytesOf (latched s.pins (trace (LCD_Set_Cursor sc row col) s)) =
      [(cursorByte row col).toNat] := by
  have ht : trace (LCD_Set_Cursor sc row col) s =
      cmdEvents (cursorByte row col / 16) ++ cmdEvents (cursorByte row col % 16) := by
    apply trace_eq_of_log
    rw [LCD_Set_Cursor_valid sc row col hrow hc1 hc2]
  have hb : 0 ≤ cursorByte row col ∧ cursorByte row col < 256 := by
    rcases hrow with rfl | rfl <;> simp only [cursorByte] <;> norm_num <;> omega
  rw [ht, latched_append, latched_cmdEvents _ (by omega) (by omega),
    latched_cmdEvents _ (by omega) (by omega)]
  simp only [List.singleton_append, bytesOf, List.cons.injEq, and_true]
  omega

/-- C14: for rows 1, 2 and columns 1 .. 16 the controller assembles exactly
one byte from what `LCD_Set_Cursor` sends, the byte `base(row) + (col - 1)`;
its bit 7 is set, and its low seven bits (the DDRAM address) lie in
0x00 .. 0x0F for row 1 and in 0x40 .. 0x4F for row 2.  Two valid positions
that yield the same byte are the same position. -/
theorem C14_cursor_byte_injective (sc : Bool) (s : St) (row col : Int)
    (hrow : row = 1 ∨ row = 2) (hc1 : 1 ≤ col) (hc2 : col ≤ 16) (row2 col2 : Int)
    (hrow2 : row2 = 1 ∨ row2 = 2) (hd1 : 1 ≤ col2) (hd2 : col2 ≤ 16) :
    (∃ b : Nat,
      bytesOf (latched s.pins (trace (LCD_Set_Cursor sc row col) s)) = [b] ∧
      (b : Int) = (if row = 1 then 0x80 else 0xC0) + (col - 1) ∧
      b < 256 ∧ b / 128 % 2 = 1 ∧
      (row = 1 → 0x00 ≤ b % 128 ∧ b % 128 ≤ 0x0F) ∧
      (row = 2 → 0x40 ≤ b % 128 ∧ b % 128 ≤ 0x4F)) ∧
    (bytesOf (latched s.pins (trace (LCD_Set_Cursor sc row col) s)) =
      bytesOf (latched s.pins (trace (LCD_Set_Cursor sc row2 col2) s)) →
      row = row2 ∧ col = col2) := by
  have e1 := bytesOf_LCD_Set_Cursor sc row col hrow hc1 hc2 s
  have e2 := bytesOf_LCD_Set_Cursor sc row2 col2 hrow2 hd1 hd2 s
  constructor
  · refine ⟨(cursorByte row col).toNat, e1, ?_, ?_, ?_, ?_, ?_⟩
    · rcases hrow with rfl | rfl <;> norm_num [cursorByte] <;> omega
    · rcases hrow with rfl | rfl <;> norm_num [cursorByte] <;> omega
    · rcases hrow with rfl | rfl <;> norm_num [cursorByte] <;> omega
    · intro h; subst h; norm_num [cursorByte]; omega
    · intro h; subst h; norm_num [cursorByte]; omega
  · intro h
    rw [e1, e2] at h
    have h3 : (cursorByte row col).toNat = (cursorByte row2 col2).toNat := by
      simpa using h
    rcases hrow with rfl | rfl <;> rcases hrow2 with rfl | rfl <;>
      norm_num [cursorByte] at h3 <;> omega

/-- Witness for C14 at the positions (1, 16) and (2, 1), unsigned `char`:
the byte for (1, 16) is 0x8F, and it differs from the byte for (2, 1). -/
theorem C14_cursor_byte_injective_witness :
    ((1 : Int) = 1 ∨ (1 : Int) = 2) ∧ (1 : Int) ≤ 16 ∧ (16 : Int) ≤ 16 ∧
    ((2 : Int) = 1 ∨ (2 : Int) = 2) ∧ (1 : Int) ≤ 1 ∧ (1 : Int) ≤ 16 ∧
    (∃ b : Nat,
      bytesOf (latched St.idle.pins (trace (LCD_Set_Cursor false 1 16) St.idle)) = [b] ∧
      (b : Int) = (if (1 : Int) = 1 then 0x80 else 0xC0) + (16 - 1) ∧
      b < 256 ∧ b / 128 % 2 = 1 ∧
      ((1 : Int) = 1 → 0x00 ≤ b % 128 ∧ b % 128 ≤ 0x0F) ∧
      ((1 : Int) = 2 → 0x40 ≤ b % 128 ∧ b % 128 ≤ 0x4F)) ∧
    (bytesOf (latched St.idle.pins (trace (LCD_Set_Cursor false 1 16) St.idle)) =
      bytesOf (latched St.idle.pins (trace (LCD_Set_Cursor false 2 1) St.idle)) →
      (1 : Int) = 2 ∧ (16 : Int) = 1) :=
  ⟨Or.inl rfl, by decide, by decide, Or.inr rfl, by decide, by decide,
    C14_cursor_byte_injective false St.idle 1 16 (Or.inl rfl) (by decide) (by decide) 2 1
      (Or.inr rfl) (by decide) (by decide)⟩

/-! ## C15 : signedness of plain `char` -/

theorem toChar_eq_iff (sc : Bool) (x k : Int) (h0 : 0 ≤ k) (h1 : k < 128) :
    toChar sc x = k ↔ x % 256 = k := by
  cases sc <;> simp only [toChar] <;> omega

/-- The cursor operation does not depend on the signedness of `char`. -/
theorem LCD_Set_Cursor_signedness (row col : Int) (s : St) :
    LCD_Set_Cursor true row col s = LCD_Set_Cursor false row col s := by
  by_cases h1 : row % 256 = 1
  · rw [LCD_Set_Cursor_row1 true row col ((toChar_eq_iff true row 1 (by decide) (by decide)).mpr h1),
      LCD_Set_Cursor_row1 false row col
        ((toChar_eq_iff false row 1 (by decide) (by decide)).mpr h1)]
  · by_cases h2 : row % 256 = 2
    · rw [LCD_Set_Cursor_row2 true row col
          ((toChar_eq_iff true row 2 (by decide) (by decide)).mpr h2),
        LCD_Set_Cursor_row2 false row col
          ((toChar_eq_iff false row 2 (by decide) (by decide)).mpr h2)]
    · have a1 := fun sc => (toChar_eq_iff sc row 1 (by decide) (by decide)).not.mpr h1
      have a2 := fun sc => (toChar_eq_iff sc row 2 (by decide) (by decide)).not.mpr h2
      simp [LCD_Set_Cursor, a1, a2]

/-- C15: for every argument `c` and every `row`, `col`, `LCD_Write_Char(c)`
and `LCD_Set_Cursor(row, col)` append the same pin-write sequence and reach
the same state whether plain `char` is signed or unsigned.  For a byte `b`
with bit 7 set the shifted value passed to `LCD_Port` does differ (it is
`b / 16 - 16` when `char` is signed, `b / 16` when unsigned: the shift
sign-extends), but `LCD_Port` drives the same four bits, the high nibble of
`b`, in both cases. -/
theorem C15_char_signedness_irrelevant (c row col : Int) (s : St) :
    trace (LCD_Write_Char true c) s = trace (LCD_Write_Char false c) s ∧
    LCD_Write_Char true c s = LCD_Write_Char false c s ∧
    trace (LCD_Set_Cursor true row col) s = trace (LCD_Set_Cursor false row col) s ∧
    LCD_Set_Cursor true row col s = LCD_Set_Cursor false row col s ∧
    (∀ b : Int, 128 ≤ b → b < 256 →
      Int.shiftRight (toChar true (Int.land (toChar true b) 0xF0)) 4 = b / 16 - 16 ∧
      Int.shiftRight (toChar false (Int.land (toChar false b) 0xF0)) 4 = b / 16 ∧
      LCD_Port true (b / 16 - 16) s = LCD_Port false (b / 16) s ∧
      trace (LCD_Port true (b / 16 - 16)) s = portEvents (b / 16)) := by
  refine ⟨?_, ?_, ?_, ?_, ?_⟩
  · rw [trace_LCD_Write_Char, trace_LCD_Write_Char]
  · rw [LCD_Write_Char_eq, LCD_Write_Char_eq]
  · simp only [trace, LCD_Set_Cursor_signedness]
  · exact LCD_Set_Cursor_signedness row col s
  · intro b hb0 hb1
    have hk : (b / 16 - 16) % 16 = (b / 16) % 16 := by omega
    refine ⟨?_, ?_, ?_, ?_⟩
    · rw [shiftRight_four, land_F0]
      simp only [toChar]
      norm_num
      omega
    · rw [shiftRight_four, land_F0]
      simp only [toChar]
      norm_num
      omega
    · rw [LCD_Port_eq, LCD_Port_eq, portEvents_congr hk, portPins_congr hk]
    · rw [trace_eq_of_log (by rw [LCD_Port_eq]), portEvents_congr hk]

/-- Witness for C15 at the byte 0xC8 and the position (2, 16), all lines low:
the signed shift yields -4, the unsigned one 12, the sequences agree. -/
theorem C15_char_signedness_irrelevant_witness :
    trace (LCD_Write_Char true 0xC8) St.idle = trace (LCD_Write_Char false 0xC8) St.idle ∧
    trace (LCD_Set_Cursor true 2 16) St.idle = trace (LCD_Set_Cursor false 2 16) St.idle ∧
    (Int.shiftRight (toChar true (Int.land (toChar true 0xC8) 0xF0)) 4 = 0xC8 / 16 - 16 ∧
      Int.shiftRight (toChar false (Int.land (toChar false 0xC8) 0xF0)) 4 = 0xC8 / 16 ∧
      LCD_Port true (0xC8 / 16 - 16) St.idle = LCD_Port false (0xC8 / 16) St.idle ∧
      trace (LCD_Port true (0xC8 / 16 - 16)) St.idle = portEvents (0xC8 / 16)) :=
  ⟨(C15_char_signedness_irrelevant 0xC8 2 16 St.idle).1,
    (C15_char_signedness_irrelevant 0xC8 2 16 St.idle).2.2.1,
    (C15_char_signedness_irrelevant 0xC8 2 16 St.idle).2.2.2.2 0xC8 (by decide) (by decide)⟩

/-! ## C16 : the buffer of `LCD_Print_Int` -/

theorem isInt_range (w : Nat) (hw : w = 16 ∨ w = 32) (n : Int) (hn : isInt w n) :
    -2147483648 ≤ n ∧ n ≤ 2147483647 ∧ (w = 16 → -32768 ≤ n ∧ n ≤ 32767) := by
  rcases hw with rfl | rfl <;> simp only [isInt] at hn <;> norm_num at hn ⊢ <;> omega

theorem fmt_i_length_16 (n : Int) (h0 : -32768 ≤ n) (h1 : n ≤ 32767) :
    (fmt_i n).length ≤ 6 := by
  have hk : n.natAbs < 10 ^ (4 + 1) := by norm_num; omega
  have h := decimalDigits_length (n.natAbs + 1) n.natAbs 4 [] hk
  unfold fmt_i
  split
  · simp only [List.length_cons, List.length_nil] at h ⊢; omega
  · simp only [List.length_nil] at h; omega

/-- C16: for an `int` of 16 or of 32 bits and every value `n` of that type,
the decimal text formatted for `n` has at most 11 characters (at most 6 when
`int` has 16 bits), so text and terminating NUL take at most 12 of the 16
bytes of `buff`: the write stays inside the buffer and `LCD_Print_Int`
returns.  The bound 11 is reached by the least 32-bit value. -/
theorem C16_print_int_buffer (w : Nat) (hw : w = 16 ∨ w = 32) (n : Int) (hn : isInt w n)
    (sc : Bool) (row col : Int) (s : St) :
    (fmt_i n).length ≤ 11 ∧
    (w = 16 → (fmt_i n).length ≤ 6) ∧
    (fmt_i n ++ [0]).length ≤ 16 ∧
    sprintf_i 16 n = some (fmt_i n ++ [0]) ∧
    (∃ t, LCD_Print_Int sc w n row col s = some t) ∧
    (fmt_i (-2147483648)).length = 11 := by
  obtain ⟨h0, h1, h16⟩ := isInt_range w hw n hn
  have hlen := fmt_i_length n h0 h1
  refine ⟨hlen, fun h => fmt_i_length_16 n (h16 h).1 (h16 h).2, ?_, ?_, ?_, by decide⟩
  · simp only [List.length_append, List.length_singleton]; omega
  · simp only [sprintf_i, List.length_append, List.length_singleton]
    rw [if_pos (by omega)]
  · have hmax := INT_MAX_ge w (by omega)
    rw [LCD_Print_Int_eq_Print sc w n row col h0 h1 s]
    exact ⟨_, LCD_Write_String_eq sc w (fmt_i n) [] (fmt_i_mem n) (by omega)
      (LCD_Set_Cursor sc row col s)⟩

/-- Witness for C16 at the least value of a 32-bit `int`. -/
theorem C16_print_int_buffer_witness :
    ((32 : Nat) = 16 ∨ (32 : Nat) = 32) ∧ isInt 32 (-2147483648) ∧
    (fmt_i (-2147483648)).length ≤ 11 ∧
    sprintf_i 16 (-2147483648) = some (fmt_i (-2147483648) ++ [0]) :=
  ⟨Or.inr rfl, by decide,
    (C16_print_int_buffer 32 (Or.inr rfl) (-2147483648) (by decide) false 1 1 St.idle).1,
    (C16_print_int_buffer 32 (Or.inr rfl) (-2147483648) (by decide) false 1 1 St.idle).2.2.2.1⟩

end LcdMA
